import Mathlib

/-!
Hill climbers: a shallow embedding of `hillclimb.cpp`.

The C++ program runs a number of stochastic hill climbers (one per thread) that
minimise one of eight benchmark functions in two dimensions and share the best
point found so far.

Modelling conventions.

* `double` values are modelled exactly.  The benchmark functions use `sin`, `cos`
  and `sqrt`, so they are stated over `ℝ`.  All the other code (sampling, bounds
  check, neighbour loop, shared best, `main`) only uses field operations,
  comparisons and the `double → int` conversion, so it is written once for every
  linearly ordered field `K` with a floor function; it runs on `ℚ` and the
  theorems instantiate it at `ℝ`.
* `unsigned int` is `Nat` with an explicit `% 2 ^ 32` where the code can wrap.
* `rand()` is an explicit stream: `rng n` is the value of
  `rand() / (double)RAND_MAX` at the `n`-th future call, so `0 ≤ rng n ≤ 1`.
* Standard output is the list `Globals.out` of emitted records.
* Threads are interleaved explicitly.  `sysStep` interleaves whole worker steps
  (one pass of the loop body with its locked section) and the two signals;
  `access` interleaves the single statements of the locked section (lines 190-196)
  with the readers of the record, the mutex being part of the state.
-/

namespace HillClimb

/-! ## Constants (lines 10-13) -/

/-- Constant `DIMENSIONS`: how many dimensions. -/
abbrev DIMENSIONS : Nat := 2

/-- Constant `NEIGHBORS`: how many moves to make per position. -/
abbrev NEIGHBORS : Nat := 4

/-- Constant `MIN_THREADS`. -/
abbrev MIN_THREADS : Nat := 1

/-- Constant `MAX_THREADS`. -/
abbrev MAX_THREADS : Nat := 8

/-- A `std::array<double, DIMENSIONS>`. -/
abbrev Position (K : Type) := Fin DIMENSIONS → K

/-- The read `p[i]` for a loop counter `i`.  Every loop of the program keeps its
index below `DIMENSIONS`; the value outside that range is never used. -/
def idx {K : Type} [Zero K] (p : Position K) (i : Nat) : K :=
  if h : i < DIMENSIONS then p ⟨i, h⟩ else 0

/-! ## Benchmark functions (lines 43-165)

`std::pow(x, 2)` and `std::pow(std::abs(x), i+1)` have a non-negative integer
exponent and are the monoid power; the integer expressions `i+1` and
`10 * DIMENSIONS` are converted to `double` as in C++. -/

/-- Function `sumDifferentPowersFunction` (lines 62-68). -/
noncomputable def sumDifferentPowersFunction (p : Position ℝ) : ℝ :=
  (List.range DIMENSIONS).foldl (fun sum i => sum + |idx p i| ^ (i + 1)) 0

/-- Function `sumSquaresFunction` (lines 75-81). -/
noncomputable def sumSquaresFunction (p : Position ℝ) : ℝ :=
  (List.range DIMENSIONS).foldl (fun sum i => sum + ((i + 1 : ℕ) : ℝ) * idx p i ^ 2) 0

/-- Function `dixonPriceFunction` (lines 88-94): the loop runs over `1 ≤ i < DIMENSIONS`. -/
noncomputable def dixonPriceFunction (p : Position ℝ) : ℝ :=
  (List.range' 1 (DIMENSIONS - 1)).foldl
    (fun sum i => sum + ((i + 1 : ℕ) : ℝ) * (2 * idx p i ^ 2 - idx p (i - 1)) ^ 2)
    ((idx p 0 - 1) ^ 2)

/-- Function `sphereFunction` (lines 101-107). -/
noncomputable def sphereFunction (p : Position ℝ) : ℝ :=
  (List.range DIMENSIONS).foldl (fun sum i => sum + idx p i ^ 2) 0

/-- Function `griewankFunction` (lines 114-121): the loop state is `(sum, product)`. -/
noncomputable def griewankFunction (p : Position ℝ) : ℝ :=
  let sp := (List.range DIMENSIONS).foldl
    (fun (sp : ℝ × ℝ) i =>
      (sp.1 + idx p i ^ 2 / 4000,
       sp.2 * Real.cos (idx p i / Real.sqrt ((i + 1 : ℕ) : ℝ))))
    (0, 1)
  sp.1 - sp.2 + 1

/-- Function `rastriginFunction` (lines 128-134). -/
noncomputable def rastriginFunction (p : Position ℝ) : ℝ :=
  (List.range DIMENSIONS).foldl
    (fun sum i => sum + (idx p i ^ 2 - 10 * Real.cos (2 * Real.pi * idx p i)))
    (((10 * DIMENSIONS : ℕ) : ℝ))

/-- Function `schwefelFunction` (lines 141-148). -/
noncomputable def schwefelFunction (p : Position ℝ) : ℝ :=
  let sum : ℝ := 418.9829 * ((DIMENSIONS : ℕ) : ℝ)
  let subSum := (List.range DIMENSIONS).foldl
    (fun subSum i => subSum + idx p i * Real.sin (Real.sqrt |idx p i|)) 0
  sum - subSum

/-- Function `eggHolderFunction` (lines 155-165): the loop runs over
`i < DIMENSIONS - 1`; the three statements on `subSum` are kept apart. -/
noncomputable def eggHolderFunction (p : Position ℝ) : ℝ :=
  (List.range (DIMENSIONS - 1)).foldl
    (fun sum i =>
      let subSum := (idx p (i + 1) + 47)
        * Real.sin (Real.sqrt |idx p i / 2 + idx p (i + 1) + 47|)
      let subSum := subSum - idx p i * Real.sin (Real.sqrt |idx p i - idx p (i + 1) - 47|)
      let subSum := subSum * (-1)
      sum + subSum)
    0

/-- The `switch` of `fitnessEvaluation` (lines 44-54).  The second component
records whether the `default:` arm was the one taken. -/
noncomputable def fitnessSwitch (functionType : Nat) (p : Position ℝ) : ℝ × Bool :=
  match functionType with
  | 1 => (eggHolderFunction p, false)
  | 2 => (schwefelFunction p, false)
  | 3 => (rastriginFunction p, false)
  | 4 => (griewankFunction p, false)
  | 5 => (sphereFunction p, false)
  | 6 => (dixonPriceFunction p, false)
  | 7 => (sumSquaresFunction p, false)
  | 8 => (sumDifferentPowersFunction p, false)
  | _ => (0.00, true)

/-- Function `fitnessEvaluation` (lines 43-55), reading the global `functionType`. -/
noncomputable def fitnessEvaluation (functionType : Nat) (p : Position ℝ) : ℝ :=
  (fitnessSwitch functionType p).1

/-! ## Sampling and bounds check (lines 209-232) -/

section Machinery

variable {K : Type} [LinearOrderedField K] [FloorRing K]

/-- Conversion to `unsigned int`: reduction modulo `2 ^ 32`. -/
def toUnsigned (n : Int) : Nat :=
  (n % 2 ^ 32).toNat

/-- The implicit conversion `double → int` that C++ applies when a `double` is
passed for an `int` parameter: truncation toward zero. -/
def toInt (x : K) : Int :=
  if 0 ≤ x then ⌊x⌋ else ⌈x⌉

/-- The future values of `rand() / (double)RAND_MAX`, in call order. -/
abbrev Rand (K : Type) := Nat → K

/-- Function `getRandPosition(int l, int h)` (lines 209-216): iteration `i` of the
loop makes the `i`-th call of `rand()` and stores `l + r * (h - l)` in `p[i]`,
where `h - l` is computed on `int`.  Returns the position and the rest of the
stream. -/
def getRandPosition (l h : Int) (rng : Rand K) : Position K × Rand K :=
  (fun i => (l : K) + rng i.val * ((h - l : Int) : K), fun n => rng (n + DIMENSIONS))

/-- Function `checkInBounds(p, int l, int h)` (lines 225-232): `false` as soon as
one `p[i] > h || p[i] < l`, `true` after the loop. -/
def checkInBounds (p : Position K) (l h : Int) : Bool :=
  (List.range DIMENSIONS).all
    (fun i => !(decide (idx p i > (h : K)) || decide (idx p i < (l : K))))

/-! ## Globals and the shared best record (lines 15-23, 189-196, 238-257) -/

/-- One write to standard output.  `printBest` renders the best record; the
rendered text is kept as the pair of values it prints. -/
inductive Output (K : Type)
  | line (text : String)
  | newMinimum (shown : Position K × K)
  | bestSoFar (shown : Position K × K)
  | bestInRun (shown : Position K × K)

/-- The global variables of the program (lines 16-23) and its standard output. -/
structure Globals (K : Type) where
  bestPosition : Position K
  bestResult : K
  occupied : Nat
  continuing : Bool
  functionType : Nat
  bound : K
  rBound : K
  out : List (Output K)

/-- Constant `DBL_MAX` of `float.h`: the largest finite `double`. -/
def DBL_MAX : K := 2 ^ 1024 - 2 ^ 971

/-- The globals as the static initialisers leave them (lines 16-23): objects
without an initialiser are zero. -/
def startGlobals : Globals K :=
  { bestPosition := fun _ => 0
    bestResult := DBL_MAX
    occupied := 0
    continuing := false
    functionType := 1
    bound := 512.00
    rBound := 512.00 * 0.10
    out := [] }

/-- Function `printBest` (lines 238-247): the values it renders. -/
def printBest (g : Globals K) : Position K × K :=
  (g.bestPosition, g.bestResult)

/-- The locked section of `hillClimb` (lines 190-196) for the worker's local
`position` and `best`. -/
def publish (position : Position K) (best : K) (g : Globals K) : Globals K :=
  if best < g.bestResult then
    let g := { g with bestPosition := position }
    let g := { g with bestResult := best }
    { g with out := g.out ++ [Output.newMinimum (printBest g)] }
  else g

/-- Signal handler `interrupted` (lines 250-252). -/
def interrupted (g : Globals K) : Globals K :=
  { g with continuing := false }

/-- Signal handler `checkBest` (lines 255-257). -/
def checkBest (g : Globals K) : Globals K :=
  { g with out := g.out ++ [Output.bestSoFar (printBest g)] }

/-- An access to the shared best record: the locked section run by some worker
with its local pair, or a status query. -/
inductive SharedOp (K : Type)
  | tryPublish (position : Position K) (best : K)
  | status

/-- Effect of one access on the globals. -/
def applyOp (g : Globals K) : SharedOp K → Globals K
  | .tryPublish position best => publish position best g
  | .status => checkBest g

/-- The successive values of `bestResult` while a sequence of accesses runs,
the value before the first access included. -/
def bestResultTrace (g : Globals K) : List (SharedOp K) → List K
  | [] => [g.bestResult]
  | op :: ops => g.bestResult :: bestResultTrace (applyOp g op) ops

/-! ## The worker (lines 170-201) -/

/-- One iteration of the `NEIGHBORS` loop (lines 179-187) on the worker's
`(position, best)` and the random stream. -/
def neighbor (fitness : Position K → K) (rBound : K)
    (st : Position K × K × Rand K) : Position K × K × Rand K :=
  let position := st.1
  let best := st.2.1
  let drawn := getRandPosition (toInt (-rBound)) (toInt rBound) st.2.2
  let stoch := drawn.1
  let tempPos : Position K := fun j => stoch j + position j
  let tempBest := fitness tempPos
  if tempBest < best then (tempPos, tempBest, drawn.2) else (position, best, drawn.2)

/-- The `for` loop of lines 178-188. -/
def neighborLoop (fitness : Position K → K) (rBound : K)
    (st : Position K × K × Rand K) : Position K × K × Rand K :=
  (List.range NEIGHBORS).foldl (fun st _ => neighbor fitness rBound st) st

/-- Control points of a worker thread: `outer` is the test of
`while (continuing)` (line 174), `inner` the test of `while (checkInBounds ...)`
(line 177) with the locals `position`, `best`; `returned` is after line 200. -/
inductive Worker (K : Type)
  | outer (rng : Rand K)
  | inner (position : Position K) (best : K) (rng : Rand K)
  | returned

/-- What a worker step did. -/
inductive Action (K : Type)
  | sampled (position : Position K) (best : K)
  | locked (position : Position K) (best : K)
  | leftBounds
  | exited
  | idle

/-- One step of `hillClimb` from a control point.  From `inner`, in bounds, the
step is a whole pass of the loop body: the neighbour loop, which touches only
locals, and then the locked section on the resulting `(position, best)`, reported
as `Action.locked`.  The parameter `fitness` is `fitnessEvaluation`. -/
def hillClimbStep (fitness : Nat → Position K → K) (g : Globals K) :
    Worker K → Action K × Globals K × Worker K
  | .outer rng =>
    if g.continuing then
      let drawn := getRandPosition (toInt (-g.bound)) (toInt g.bound) rng
      let position := drawn.1
      let best := fitness g.functionType position
      (.sampled position best, g, .inner position best drawn.2)
    else
      (.exited, { g with occupied := toUnsigned ((g.occupied : Int) - 1) }, .returned)
  | .inner position best rng =>
    if checkInBounds position (toInt (-g.bound)) (toInt g.bound) then
      let st := neighborLoop (fitness g.functionType) g.rBound (position, best, rng)
      (.locked st.1 st.2.1, publish st.1 st.2.1 g, .inner st.1 st.2.1 st.2.2)
    else
      (.leftBounds, g, .outer rng)
  | .returned => (.idle, g, .returned)

/-- The random stream a worker will draw from at its control point. -/
def drawsOf : Worker K → Rand K
  | .outer rng => rng
  | .inner _ _ rng => rng
  | .returned => fun _ => 0

/-- The globals when `main` has started the workers for `hillclimb 1 7`
(Sum Squares, bound 10, hence `rBound` 1). -/
def sumSquaresGlobals : Globals K :=
  { (startGlobals : Globals K) with
    bound := 10
    functionType := 7
    rBound := 10 * 0.10
    continuing := true
    occupied := 7 }

/-- A random stream made of the extreme values of `rand()`: 0 at the calls
number 3, 4, 6 and 8, and `RAND_MAX` (quotient 1) at all the others. -/
def edgeDraws : Rand K :=
  fun n => if n = 3 ∨ n = 4 ∨ n = 6 ∨ n = 8 then 0 else 1

/-! ## Start-up in `main` (lines 260-287) -/

/-- How `main` leaves its start-up part: it returned `code` before creating any
thread, or it created `threads` threads and reached the wait loop of line 288. -/
inductive Started (K : Type)
  | returned (code : Int) (g : Globals K)
  | running (threads : Nat) (g : Globals K)

/-- The start-up part of `main` (lines 265-287).  The parameter `atoi` is the C library function;
`argc` is the length of `argv`. -/
def main (atoi : String → Int) (argv : List String) (g : Globals K) : Started K :=
  if argv.length ≠ 3 then
    .returned 1 { g with out := g.out ++ [Output.line "Expected two arguments."] }
  else
    let choiceA := toUnsigned (atoi (argv.getD 1 ""))
    let choiceB := toUnsigned (atoi (argv.getD 2 ""))
    if choiceA > MAX_THREADS then
      .returned 1 { g with out := g.out ++ [Output.line "Too many climbers."] }
    else if choiceA < MIN_THREADS then
      .returned 1 { g with out := g.out ++ [Output.line "Too few climbers."] }
    else
      let switched : Option (Globals K) :=
        match choiceB with
        | 1 => some { g with bound := 512.00 }
        | 2 => some { g with bound := 500.00 }
        | 3 => some { g with bound := 5.12 }
        | 4 => some { g with bound := 600.00 }
        | 5 => some { g with bound := 5.12 }
        | 6 => some { g with bound := 10 }
        | 7 => some { g with bound := 10 }
        | 8 => some { g with bound := 1 }
        | _ => none
      match switched with
      | none => .returned 1 { g with out := g.out ++ [Output.line "Invalid function type."] }
      | some g =>
        let g := { g with functionType := choiceB }
        let g := { g with rBound := g.bound * 0.10 }
        let g := { g with continuing := true }
        let created := (List.range choiceB).foldl
          (fun (st : Nat × Globals K) _ =>
            (st.1 + 1, { st.2 with occupied := (st.2.occupied + 1) % 2 ^ 32 }))
          (0, g)
        .running created.1 created.2

/-- Number of threads `main` has created when its start-up part is over. -/
def threadsStarted : Started K → Nat
  | .returned _ _ => 0
  | .running threads _ => threads

/-- The value `main` returned during start-up, if it did return. -/
def exitCode : Started K → Option Int
  | .returned code _ => some code
  | .running _ _ => none

end Machinery

/-- Digits of a decimal numeral, most significant first, as `atoi` accumulates
them; reading stops at the first character that is not a digit. -/
def digitsValue : List Char → Int → Int
  | [], acc => acc
  | c :: cs, acc =>
    if c.isDigit then digitsValue cs (acc * 10 + ((c.toNat - 48 : Nat) : Int)) else acc

/-- The C library `atoi` on an argument without leading white space and within
the range of `int`; used to run `main` on concrete command lines. -/
def decimal (s : String) : Int :=
  match s.data with
  | '-' :: cs => - digitsValue cs 0
  | '+' :: cs => digitsValue cs 0
  | cs => digitsValue cs 0

/-! ## Shutdown, the whole program, and the statements of the locked section -/

section SystemModel

variable {K : Type} [LinearOrderedField K] [FloorRing K]

/-- The globals when `main` has started the workers for `hillclimb 1 5`
(Sphere, bound 5.12, hence `rBound` 0.512). -/
def sphereGlobals : Globals K :=
  { (startGlobals : Globals K) with
    bound := 5.12
    functionType := 5
    rBound := 5.12 * 0.10
    continuing := true
    occupied := 5 }

/-- The output statement of line 289. -/
def finalReport (g : Globals K) : Globals K :=
  { g with out := g.out ++ [Output.bestInRun (printBest g)] }

/-- One evaluation of the wait loop of `main` (lines 288-290): `none` when the
test `continuing && occupied > 0` holds (the body sleeps and the test is made
again); otherwise the loop exits, `main` prints "Best in run" and returns 0. -/
def waitLoop (g : Globals K) : Option (Int × Globals K) :=
  if g.continuing && decide (g.occupied > 0) then none
  else some (0, finalReport g)

/-- The running program: the globals and the worker threads. -/
structure System (K : Type) where
  g : Globals K
  workers : List (Worker K)

/-- What can happen next in the running program: worker `i` makes a step, or
one of the two signals is delivered. -/
inductive Event
  | work (i : Nat)
  | sigint
  | sigusr1

/-- Effect of one event; a worker index that names no thread changes nothing. -/
def sysStep (fitness : Nat → Position K → K) (s : System K) : Event → System K
  | .work i =>
    match s.workers.get? i with
    | some w =>
      { g := (hillClimbStep fitness s.g w).2.1
        workers := s.workers.set i (hillClimbStep fitness s.g w).2.2 }
    | none => s
  | .sigint => { s with g := interrupted s.g }
  | .sigusr1 => { s with g := checkBest s.g }

/-- Effect of a finite sequence of events. -/
def sysRun (fitness : Nat → Position K → K) (s : System K) (events : List Event) : System K :=
  events.foldl (sysStep fitness) s

/-- The worker's local pair is consistent: at the test of the inner loop `best`
is the fitness of `position`. -/
def Worker.consistent (fitness : Position K → K) : Worker K → Prop
  | .inner position best _ => best = fitness position
  | _ => True

/-- Whether a write to standard output is a "New minimum" report. -/
def Output.isNewMinimum : Output K → Bool
  | .newMinimum _ => true
  | _ => false

/-- The candidate of one iteration of the neighbour loop (lines 179-183):
`tempPos` and `tempBest`, from the state at the start of that iteration. -/
def candidate (fitness : Position K → K) (rBound : K)
    (st : Position K × K × Rand K) : Position K × K :=
  let stoch := (getRandPosition (toInt (-rBound)) (toInt rBound) st.2.2).1
  let tempPos : Position K := fun j => stoch j + st.1 j
  (tempPos, fitness tempPos)

/-- The first `n` iterations of the neighbour loop, written down: for each one the
candidate and whether the test `tempBest < best` of line 184 held. -/
def neighborTrace (fitness : Position K → K) (rBound : K) :
    Nat → Position K × K × Rand K → List ((Position K × K) × Bool)
  | 0, _ => []
  | n + 1, st =>
    (candidate fitness rBound st, decide ((candidate fitness rBound st).2 < st.2.1))
      :: neighborTrace fitness rBound n (neighbor fitness rBound st)

/-- The perturbation vectors `stoch` that the `NEIGHBORS` iterations of one pass
draw from the stream, in order: iteration `k` draws after `k * DIMENSIONS`
earlier calls of `rand()`. -/
def perturbations (rBound : K) (rng : Rand K) : List (Position K) :=
  (List.range NEIGHBORS).map
    (fun k => (getRandPosition (toInt (-rBound)) (toInt rBound)
      (fun n => rng (n + k * DIMENSIONS))).1)

/-- First improvement, in the words of the specification: the candidates are
`pos + d` for the perturbation vectors `d` in order, each formed from the position
held at the start of the iteration; the new current is the first candidate whose
fitness is strictly lower than `fit`, or `(pos, fit)` if there is none. -/
def firstImprovementSpec (fitness : Position K → K) (pos : Position K) (fit : K)
    (ds : List (Position K)) : Position K × K :=
  match (ds.map (fun d => (fun j => d j + pos j : Position K))).find?
      (fun c => decide (fitness c < fit)) with
  | some c => (c, fitness c)
  | none => (pos, fit)

/-- Running improvement: each candidate is the perturbation vector added to the
running current position, and it replaces the running current `(pos, fit)` when
its fitness is strictly lower than the running `fit`. -/
def runningImprovementSpec (fitness : Position K → K) (pos : Position K) (fit : K)
    (ds : List (Position K)) : Position K × K :=
  ds.foldl
    (fun cur d =>
      if fitness (fun j => d j + cur.1 j) < cur.2
      then ((fun j => d j + cur.1 j), fitness (fun j => d j + cur.1 j))
      else cur)
    (pos, fit)

/-- A random stream whose first four quotients are 0 and all later ones 1. -/
def fallingDraws : Rand K :=
  fun n => if n < 4 then 0 else 1

/-- Control points of one worker around the locked section, one per statement:
`away` is anywhere outside lines 190-196, `atLock` is the call of
`pthread_mutex_lock` (line 190), then the test (191), the two assignments (192,
193), the output (194) and `pthread_mutex_unlock` (196). -/
inductive SectionPc
  | away
  | atLock
  | atTest
  | atWritePosition
  | atWriteResult
  | atPrint
  | atUnlock
  deriving DecidableEq

/-- A worker seen from the locked section: its locals and its control point. -/
structure Climber (K : Type) where
  position : Position K
  best : K
  pc : SectionPc

/-- The shared state at statement granularity: the globals, the mutex
`updateLock` (the index of the worker holding it, if any) and the workers. -/
structure Shared (K : Type) where
  g : Globals K
  updateLock : Option Nat
  climbers : Nat → Climber K

/-- One statement of worker `i` at its control point.  At `atLock` the worker
proceeds only if the mutex is free, and takes it; otherwise it stays blocked. -/
def sectionStep (i : Nat) (c : Climber K) (g : Globals K) (updateLock : Option Nat) :
    Climber K × Globals K × Option Nat :=
  match c.pc with
  | .away => (c, g, updateLock)
  | .atLock =>
    if updateLock = none then ({ c with pc := .atTest }, g, some i) else (c, g, updateLock)
  | .atTest =>
    if c.best < g.bestResult then ({ c with pc := .atWritePosition }, g, updateLock)
    else ({ c with pc := .atUnlock }, g, updateLock)
  | .atWritePosition =>
    ({ c with pc := .atWriteResult }, { g with bestPosition := c.position }, updateLock)
  | .atWriteResult =>
    ({ c with pc := .atPrint }, { g with bestResult := c.best }, updateLock)
  | .atPrint =>
    ({ c with pc := .atUnlock },
      { g with out := g.out ++ [Output.newMinimum (printBest g)] }, updateLock)
  | .atUnlock => ({ c with pc := .away }, g, none)

/-- An interleaving step: worker `i` leaves its neighbour loop with the locals
`(position, best)` and reaches line 190; worker `i` executes one statement; a
status query (`checkBest`, lines 255-257); the final report of `main` (line 289).
The last two read the record as `printBest` does, without touching the mutex. -/
inductive Access (K : Type)
  | arrive (i : Nat) (position : Position K) (best : K)
  | step (i : Nat)
  | status
  | report

/-- Effect of one interleaving step. -/
def access (s : Shared K) : Access K → Shared K
  | .arrive i position best =>
    if (s.climbers i).pc = .away then
      { s with climbers := Function.update s.climbers i ⟨position, best, .atLock⟩ }
    else s
  | .step i =>
    { g := (sectionStep i (s.climbers i) s.g s.updateLock).2.1
      updateLock := (sectionStep i (s.climbers i) s.g s.updateLock).2.2
      climbers := Function.update s.climbers i
        (sectionStep i (s.climbers i) s.g s.updateLock).1 }
  | .status => { s with g := checkBest s.g }
  | .report => { s with g := finalReport s.g }

/-- Whether a control point is inside the locked section (the mutex is held). -/
def SectionPc.inside : SectionPc → Bool
  | .away => false
  | .atLock => false
  | _ => true

/-- The invariant of the interleaving model, for a property `Q` of the pairs
that workers bring to the locked section: a worker inside the section holds the
mutex; the locals of a worker at or inside the section satisfy `Q`; every
"New minimum" report shows a pair satisfying `Q`; between the two assignments
`bestPosition` is already the worker's position; at the output statement the
record is the worker's pair; at the unlock the stored fitness is not above the
worker's. -/
def Shared.Inv (Q : Position K → K → Prop) (s : Shared K) : Prop :=
  (∀ i, (s.climbers i).pc.inside = true → s.updateLock = some i)
    ∧ (∀ i, (s.climbers i).pc ≠ .away → Q (s.climbers i).position (s.climbers i).best)
    ∧ (∀ p v, Output.newMinimum (p, v) ∈ s.g.out → Q p v)
    ∧ (∀ i, (s.climbers i).pc = .atWriteResult → s.g.bestPosition = (s.climbers i).position)
    ∧ (∀ i, (s.climbers i).pc = .atPrint →
        s.g.bestPosition = (s.climbers i).position ∧ s.g.bestResult = (s.climbers i).best)
    ∧ (∀ i, (s.climbers i).pc = .atUnlock → s.g.bestResult ≤ (s.climbers i).best)

/-- The shared state before any worker has reached the locked section. -/
def Shared.start (g : Globals K) : Shared K :=
  { g := g
    updateLock := none
    climbers := fun _ => { position := fun _ => 0, best := 0, pc := .away } }

/-- An interleaving with two workers and a status query: worker 1 brings
`((3, 4), 25)` and runs its whole locked section; worker 0 brings `((1, 2), 5)`,
takes the mutex, passes the test and executes the first assignment (line 192);
then the status query runs. -/
def tornRun : List (Access K) :=
  [.arrive 1 ![3, 4] 25, .step 1, .step 1, .step 1, .step 1, .step 1, .step 1,
    .arrive 0 ![1, 2] 5, .step 0, .step 0, .step 0, .status]

end SystemModel

/-! ## Evaluation lemmas for the benchmark functions -/

theorem range_DIMENSIONS : List.range DIMENSIONS = [0, 1] := by decide

theorem range_DIMENSIONS_pred : List.range (DIMENSIONS - 1) = [0] := by decide

theorem range_from_one : List.range' 1 (DIMENSIONS - 1) = [1] := by decide

theorem idx_zero {K : Type} [Zero K] (p : Position K) : idx p 0 = p 0 := by
  simp [idx, DIMENSIONS]

theorem idx_one {K : Type} [Zero K] (p : Position K) : idx p 1 = p 1 := by
  simp [idx, DIMENSIONS]

theorem eggHolderFunction_eq (x0 x1 : ℝ) :
    eggHolderFunction ![x0, x1]
      = -(x1 + 47) * Real.sin (Real.sqrt |x0 / 2 + x1 + 47|)
        + x0 * Real.sin (Real.sqrt |x0 - x1 - 47|) := by
  simp only [eggHolderFunction, range_DIMENSIONS_pred, List.foldl, zero_add, idx_zero, idx_one,
    Matrix.cons_val_zero, Matrix.cons_val_one, Matrix.head_cons]
  ring

theorem schwefelFunction_eq (x0 x1 : ℝ) :
    schwefelFunction ![x0, x1]
      = 418.9829 * 2 - (x0 * Real.sin (Real.sqrt |x0|) + x1 * Real.sin (Real.sqrt |x1|)) := by
  simp only [schwefelFunction, range_DIMENSIONS, List.foldl, idx_zero, idx_one,
    Matrix.cons_val_zero, Matrix.cons_val_one, Matrix.head_cons]
  norm_num

theorem rastriginFunction_eq (x0 x1 : ℝ) :
    rastriginFunction ![x0, x1]
      = 10 * 2 + ((x0 ^ 2 - 10 * Real.cos (2 * Real.pi * x0))
          + (x1 ^ 2 - 10 * Real.cos (2 * Real.pi * x1))) := by
  simp only [rastriginFunction, range_DIMENSIONS, List.foldl, idx_zero, idx_one,
    Matrix.cons_val_zero, Matrix.cons_val_one, Matrix.head_cons]
  norm_num
  ring

theorem griewankFunction_eq (x0 x1 : ℝ) :
    griewankFunction ![x0, x1]
      = (x0 ^ 2 / 4000 + x1 ^ 2 / 4000)
          - Real.cos (x0 / Real.sqrt 1) * Real.cos (x1 / Real.sqrt 2) + 1 := by
  simp only [griewankFunction, range_DIMENSIONS, List.foldl, idx_zero, idx_one,
    Matrix.cons_val_zero, Matrix.cons_val_one, Matrix.head_cons]
  norm_num

theorem sphereFunction_eq (x0 x1 : ℝ) :
    sphereFunction ![x0, x1] = x0 ^ 2 + x1 ^ 2 := by
  simp only [sphereFunction, range_DIMENSIONS, List.foldl, idx_zero, idx_one,
    Matrix.cons_val_zero, Matrix.cons_val_one, Matrix.head_cons]
  norm_num

theorem dixonPriceFunction_eq (x0 x1 : ℝ) :
    dixonPriceFunction ![x0, x1] = (x0 - 1) ^ 2 + 2 * (2 * x1 ^ 2 - x0) ^ 2 := by
  simp only [dixonPriceFunction, range_from_one, List.foldl, idx_zero, idx_one,
    Matrix.cons_val_zero, Matrix.cons_val_one, Matrix.head_cons, Nat.sub_self]
  norm_num

theorem sumSquaresFunction_eq (x0 x1 : ℝ) :
    sumSquaresFunction ![x0, x1] = 1 * x0 ^ 2 + 2 * x1 ^ 2 := by
  simp only [sumSquaresFunction, range_DIMENSIONS, List.foldl, idx_zero, idx_one,
    Matrix.cons_val_zero, Matrix.cons_val_one, Matrix.head_cons]
  norm_num

theorem sumDifferentPowersFunction_eq (x0 x1 : ℝ) :
    sumDifferentPowersFunction ![x0, x1] = |x0| ^ 1 + |x1| ^ 2 := by
  simp only [sumDifferentPowersFunction, range_DIMENSIONS, List.foldl, idx_zero, idx_one,
    Matrix.cons_val_zero, Matrix.cons_val_one, Matrix.head_cons]
  norm_num

theorem sin_one_pos : 0 < Real.sin 1 :=
  Real.sin_pos_of_pos_of_lt_pi one_pos (by linarith [Real.pi_gt_three])

/-! ## Benchmark library: claims C1, C4, C5 -/

/-- C1 (defect in the code).  At the position `(1, -47)` with function id 1 the
code returns `sin 1`, which is positive, while the Egg Holder formula
`-(x1+47)*sin(sqrt(|x0/2 + x1 + 47|)) - x0*sin(sqrt(|x0 - x1 - 47|))` is `-sin 1`
there: the code adds the second term where the formula subtracts it. -/
theorem eggHolder_second_term_sign :
    fitnessEvaluation 1 ![1, -47] = Real.sin 1
      ∧ -((-47 : ℝ) + 47) * Real.sin (Real.sqrt |(1 : ℝ) / 2 + (-47) + 47|)
          - 1 * Real.sin (Real.sqrt |(1 : ℝ) - (-47) - 47|) = -Real.sin 1
      ∧ fitnessEvaluation 1 ![1, -47]
          ≠ -((-47 : ℝ) + 47) * Real.sin (Real.sqrt |(1 : ℝ) / 2 + (-47) + 47|)
              - 1 * Real.sin (Real.sqrt |(1 : ℝ) - (-47) - 47|) := by
  have hcode : fitnessEvaluation 1 ![1, -47] = Real.sin 1 := by
    simp only [fitnessEvaluation, fitnessSwitch, eggHolderFunction_eq]
    norm_num
  have hspec : -((-47 : ℝ) + 47) * Real.sin (Real.sqrt |(1 : ℝ) / 2 + (-47) + 47|)
      - 1 * Real.sin (Real.sqrt |(1 : ℝ) - (-47) - 47|) = -Real.sin 1 := by
    norm_num
  refine ⟨hcode, hspec, ?_⟩
  rw [hcode, hspec]
  have := sin_one_pos
  intro h
  linarith

/-- C4.  For every position `(x0, x1)` and every function id 2..8,
`fitnessEvaluation` returns the value of the formula the specification gives for
that id at `D = 2`: Schwefel, Rastrigin, Griewank, Sphere, Dixon-Price,
Sum Squares and Sum of Different Powers, in this order. -/
theorem fitnessEvaluation_formulas (x0 x1 : ℝ) :
    fitnessEvaluation 2 ![x0, x1]
        = 418.9829 * 2 - (x0 * Real.sin (Real.sqrt |x0|) + x1 * Real.sin (Real.sqrt |x1|))
      ∧ fitnessEvaluation 3 ![x0, x1]
        = 10 * 2 + ((x0 ^ 2 - 10 * Real.cos (2 * Real.pi * x0))
            + (x1 ^ 2 - 10 * Real.cos (2 * Real.pi * x1)))
      ∧ fitnessEvaluation 4 ![x0, x1]
        = (x0 ^ 2 / 4000 + x1 ^ 2 / 4000)
            - Real.cos (x0 / Real.sqrt 1) * Real.cos (x1 / Real.sqrt 2) + 1
      ∧ fitnessEvaluation 5 ![x0, x1] = x0 ^ 2 + x1 ^ 2
      ∧ fitnessEvaluation 6 ![x0, x1] = (x0 - 1) ^ 2 + 2 * (2 * x1 ^ 2 - x0) ^ 2
      ∧ fitnessEvaluation 7 ![x0, x1] = 1 * x0 ^ 2 + 2 * x1 ^ 2
      ∧ fitnessEvaluation 8 ![x0, x1] = |x0| ^ 1 + |x1| ^ 2 :=
  ⟨schwefelFunction_eq x0 x1, rastriginFunction_eq x0 x1, griewankFunction_eq x0 x1,
    sphereFunction_eq x0 x1, dixonPriceFunction_eq x0 x1, sumSquaresFunction_eq x0 x1,
    sumDifferentPowersFunction_eq x0 x1⟩

/-- C5.  Sphere, Rastrigin, Sum Squares, Sum of Different Powers and Griewank
(ids 5, 3, 7, 8, 4) are exactly 0 at the origin, and Dixon-Price (id 6) is
exactly 0 at `(1, 2^(-1/2))`. -/
theorem fitness_at_published_minimum :
    fitnessEvaluation 5 ![0, 0] = 0
      ∧ fitnessEvaluation 3 ![0, 0] = 0
      ∧ fitnessEvaluation 7 ![0, 0] = 0
      ∧ fitnessEvaluation 8 ![0, 0] = 0
      ∧ fitnessEvaluation 4 ![0, 0] = 0
      ∧ fitnessEvaluation 6 ![1, (2 : ℝ) ^ (-(1 / 2) : ℝ)] = 0 := by
  have hsq : ((2 : ℝ) ^ (-(1 / 2) : ℝ)) ^ 2 = 1 / 2 := by
    rw [← Real.rpow_natCast, ← Real.rpow_mul (by norm_num : (0 : ℝ) ≤ 2)]
    norm_num
  refine ⟨?_, ?_, ?_, ?_, ?_, ?_⟩
  · show sphereFunction ![0, 0] = 0
    rw [sphereFunction_eq]; norm_num
  · show rastriginFunction ![0, 0] = 0
    rw [rastriginFunction_eq]; norm_num
  · show sumSquaresFunction ![0, 0] = 0
    rw [sumSquaresFunction_eq]; norm_num
  · show sumDifferentPowersFunction ![0, 0] = 0
    rw [sumDifferentPowersFunction_eq]; norm_num
  · show griewankFunction ![0, 0] = 0
    rw [griewankFunction_eq]; norm_num
  · show dixonPriceFunction ![1, (2 : ℝ) ^ (-(1 / 2) : ℝ)] = 0
    rw [dixonPriceFunction_eq, hsq]; norm_num

/-! ## Start-up: lemmas on `main` -/

theorem create_loop {K : Type} (n c : Nat) (g : Globals K) :
    (List.range n).foldl
        (fun (st : Nat × Globals K) _ =>
          (st.1 + 1, { st.2 with occupied := (st.2.occupied + 1) % 2 ^ 32 }))
        (c, g)
      = (c + n,
          { g with occupied := if n = 0 then g.occupied else (g.occupied + n) % 2 ^ 32 }) := by
  induction n with
  | zero => rfl
  | succ n ih =>
    rw [List.range_succ, List.foldl_append, ih]
    simp only [List.foldl, Nat.add_assoc, Nat.succ_ne_zero, if_false]
    congr 2
    split_ifs with h0
    · subst h0; rfl
    · rw [Nat.mod_add_mod, Nat.add_assoc]

section MainLemmas

variable {K : Type} [LinearOrderedField K]

theorem main_of_length_ne (atoi : String → Int) (argv : List String) (g : Globals K)
    (h : argv.length ≠ 3) :
    main atoi argv g
      = .returned 1 { g with out := g.out ++ [Output.line "Expected two arguments."] } := by
  simp [main, h]

theorem main_of_too_many (atoi : String → Int) (argv : List String) (g : Globals K)
    (h3 : argv.length = 3) (h : 8 < toUnsigned (atoi (argv.getD 1 ""))) :
    main atoi argv g
      = .returned 1 { g with out := g.out ++ [Output.line "Too many climbers."] } := by
  simp only [main, h3, ne_eq, not_true_eq_false, if_false, gt_iff_lt, h, if_true]

theorem main_of_too_few (atoi : String → Int) (argv : List String) (g : Globals K)
    (h3 : argv.length = 3) (h : toUnsigned (atoi (argv.getD 1 "")) < 1) :
    main atoi argv g
      = .returned 1 { g with out := g.out ++ [Output.line "Too few climbers."] } := by
  have hnot : ¬ MAX_THREADS < toUnsigned (atoi (argv.getD 1 "")) := by omega
  simp only [main, h3, ne_eq, not_true_eq_false, if_false, gt_iff_lt, hnot, h, if_true]

theorem main_of_bad_function (atoi : String → Int) (argv : List String) (g : Globals K)
    (h3 : argv.length = 3) (hA1 : 1 ≤ toUnsigned (atoi (argv.getD 1 "")))
    (hA8 : toUnsigned (atoi (argv.getD 1 "")) ≤ 8)
    (hB : toUnsigned (atoi (argv.getD 2 "")) < 1 ∨ 8 < toUnsigned (atoi (argv.getD 2 ""))) :
    main atoi argv g
      = .returned 1 { g with out := g.out ++ [Output.line "Invalid function type."] } := by
  have hnot : ¬ 8 < toUnsigned (atoi (argv.getD 1 "")) := by omega
  have hnot1 : ¬ toUnsigned (atoi (argv.getD 1 "")) < 1 := by omega
  simp only [main, h3, ne_eq, not_true_eq_false, if_false, hnot, hnot1, gt_iff_lt]
  split
  all_goals first
    | rfl
    | (rename_i heq; split at heq <;> first | omega | cases heq)

theorem main_of_valid (atoi : String → Int) (argv : List String) (g : Globals K)
    (h3 : argv.length = 3) (hA1 : 1 ≤ toUnsigned (atoi (argv.getD 1 "")))
    (hA8 : toUnsigned (atoi (argv.getD 1 "")) ≤ 8)
    (hB1 : 1 ≤ toUnsigned (atoi (argv.getD 2 "")))
    (hB8 : toUnsigned (atoi (argv.getD 2 "")) ≤ 8) :
    main atoi argv g
      = .running (toUnsigned (atoi (argv.getD 2 "")))
          { g with
            bound := ([512, 500, 5.12, 600, 5.12, 10, 10, 1] : List K).getD
              (toUnsigned (atoi (argv.getD 2 "")) - 1) 0
            functionType := toUnsigned (atoi (argv.getD 2 ""))
            rBound := ([512, 500, 5.12, 600, 5.12, 10, 10, 1] : List K).getD
              (toUnsigned (atoi (argv.getD 2 "")) - 1) 0 * 0.10
            continuing := true
            occupied := (g.occupied + toUnsigned (atoi (argv.getD 2 ""))) % 2 ^ 32 } := by
  have hnot : ¬ 8 < toUnsigned (atoi (argv.getD 1 "")) := by omega
  have hnot1 : ¬ toUnsigned (atoi (argv.getD 1 "")) < 1 := by omega
  simp only [main, h3, ne_eq, not_true_eq_false, if_false, hnot, hnot1, gt_iff_lt]
  generalize toUnsigned (atoi (argv.getD 2 "")) = k at hB1 hB8 ⊢
  interval_cases k
  all_goals
    simp only [create_loop]
    norm_num

theorem main_running_valid (atoi : String → Int) (argv : List String) (g g' : Globals K)
    (n : Nat) (h : main atoi argv g = .running n g') :
    argv.length = 3
      ∧ (1 ≤ toUnsigned (atoi (argv.getD 1 "")) ∧ toUnsigned (atoi (argv.getD 1 "")) ≤ 8)
      ∧ (1 ≤ toUnsigned (atoi (argv.getD 2 "")) ∧ toUnsigned (atoi (argv.getD 2 "")) ≤ 8) := by
  by_cases h3 : argv.length = 3
  swap
  · rw [main_of_length_ne atoi argv g h3] at h; cases h
  by_cases hA8 : toUnsigned (atoi (argv.getD 1 "")) ≤ 8
  swap
  · rw [main_of_too_many atoi argv g h3 (by omega)] at h; cases h
  by_cases hA1 : 1 ≤ toUnsigned (atoi (argv.getD 1 ""))
  swap
  · rw [main_of_too_few atoi argv g h3 (by omega)] at h; cases h
  by_cases hB : 1 ≤ toUnsigned (atoi (argv.getD 2 "")) ∧ toUnsigned (atoi (argv.getD 2 "")) ≤ 8
  swap
  · rw [main_of_bad_function atoi argv g h3 hA1 hA8 (by omega)] at h; cases h
  exact ⟨h3, ⟨hA1, hA8⟩, hB⟩

theorem publish_config (position : Position K) (best : K) (g : Globals K) :
    (publish position best g).functionType = g.functionType
      ∧ (publish position best g).bound = g.bound
      ∧ (publish position best g).rBound = g.rBound := by
  unfold publish
  split_ifs <;> exact ⟨rfl, rfl, rfl⟩

theorem hillClimbStep_config [FloorRing K] (fitness : Nat → Position K → K) (g : Globals K) (w : Worker K) :
    (hillClimbStep fitness g w).2.1.functionType = g.functionType
      ∧ (hillClimbStep fitness g w).2.1.bound = g.bound
      ∧ (hillClimbStep fitness g w).2.1.rBound = g.rBound := by
  cases w with
  | outer rng =>
    simp only [hillClimbStep]
    split_ifs <;> exact ⟨rfl, rfl, rfl⟩
  | inner position best rng =>
    simp only [hillClimbStep]
    split_ifs
    · exact publish_config _ _ g
    · exact ⟨rfl, rfl, rfl⟩
  | returned => exact ⟨rfl, rfl, rfl⟩

end MainLemmas

/-! ## Start-up: claims C2, C8, C9 -/

section MainClaims

variable {K : Type} [LinearOrderedField K]

/-- C2 (defect in the code).  On the command line `hillclimb 1 5` (one climber,
function 5) `main` creates 5 threads: the creation loop of line 284 counts up to
`choiceB`, the function type, where the claim (and the range checks of lines
268-269) use `choiceA`, the number of climbers. -/
theorem main_creates_functionId_threads :
    toUnsigned (decimal "1") = 1
      ∧ toUnsigned (decimal "5") = 5
      ∧ threadsStarted (main decimal ["hillclimb", "1", "5"] (startGlobals : Globals ℚ)) = 5 := by
  refine ⟨by decide, by decide, ?_⟩
  rw [main_of_valid decimal ["hillclimb", "1", "5"] startGlobals rfl (by decide) (by decide)
    (by decide) (by decide)]
  decide

/-- C8.  The start-up part of `main` returns a non-zero code, having created no
thread, exactly when the argument count is wrong, or the number of climbers (as
parsed: `atoi` then conversion to `unsigned int`) is outside 1..8, or the
function id is outside 1..8; in every other case it does not return and has
created at least one thread. -/
theorem main_rejects_iff_invalid (atoi : String → Int) (argv : List String) (g : Globals K) :
    (((∃ code, exitCode (main atoi argv g) = some code ∧ code ≠ 0)
          ∧ threadsStarted (main atoi argv g) = 0)
        ↔ (argv.length ≠ 3
            ∨ ¬ (1 ≤ toUnsigned (atoi (argv.getD 1 "")) ∧ toUnsigned (atoi (argv.getD 1 "")) ≤ 8)
            ∨ ¬ (1 ≤ toUnsigned (atoi (argv.getD 2 ""))
                  ∧ toUnsigned (atoi (argv.getD 2 "")) ≤ 8)))
      ∧ (¬ (argv.length ≠ 3
            ∨ ¬ (1 ≤ toUnsigned (atoi (argv.getD 1 "")) ∧ toUnsigned (atoi (argv.getD 1 "")) ≤ 8)
            ∨ ¬ (1 ≤ toUnsigned (atoi (argv.getD 2 ""))
                  ∧ toUnsigned (atoi (argv.getD 2 "")) ≤ 8))
          → exitCode (main atoi argv g) = none ∧ 0 < threadsStarted (main atoi argv g)) := by
  have reject : ∀ (g1 : Globals K),
      (argv.length ≠ 3
        ∨ ¬ (1 ≤ toUnsigned (atoi (argv.getD 1 "")) ∧ toUnsigned (atoi (argv.getD 1 "")) ≤ 8)
        ∨ ¬ (1 ≤ toUnsigned (atoi (argv.getD 2 ""))
              ∧ toUnsigned (atoi (argv.getD 2 "")) ≤ 8)) →
      (((∃ code, exitCode (Started.returned 1 g1) = some code ∧ code ≠ 0)
            ∧ threadsStarted (Started.returned 1 g1) = 0)
          ↔ (argv.length ≠ 3
              ∨ ¬ (1 ≤ toUnsigned (atoi (argv.getD 1 ""))
                    ∧ toUnsigned (atoi (argv.getD 1 "")) ≤ 8)
              ∨ ¬ (1 ≤ toUnsigned (atoi (argv.getD 2 ""))
                    ∧ toUnsigned (atoi (argv.getD 2 "")) ≤ 8)))
        ∧ (¬ (argv.length ≠ 3
              ∨ ¬ (1 ≤ toUnsigned (atoi (argv.getD 1 ""))
                    ∧ toUnsigned (atoi (argv.getD 1 "")) ≤ 8)
              ∨ ¬ (1 ≤ toUnsigned (atoi (argv.getD 2 ""))
                    ∧ toUnsigned (atoi (argv.getD 2 "")) ≤ 8))
            → exitCode (Started.returned 1 g1) = none
                ∧ 0 < threadsStarted (Started.returned 1 g1)) :=
    fun g1 hinv =>
      ⟨⟨fun _ => hinv, fun _ => ⟨⟨1, rfl, by decide⟩, rfl⟩⟩, fun hv => absurd hinv hv⟩
  by_cases h3 : argv.length = 3
  swap
  · rw [main_of_length_ne atoi argv g h3]
    exact reject _ (Or.inl h3)
  by_cases hA8 : toUnsigned (atoi (argv.getD 1 "")) ≤ 8
  swap
  · rw [main_of_too_many atoi argv g h3 (by omega)]
    exact reject _ (Or.inr (Or.inl (fun h => hA8 h.2)))
  by_cases hA1 : 1 ≤ toUnsigned (atoi (argv.getD 1 ""))
  swap
  · rw [main_of_too_few atoi argv g h3 (by omega)]
    exact reject _ (Or.inr (Or.inl (fun h => hA1 h.1)))
  by_cases hB : 1 ≤ toUnsigned (atoi (argv.getD 2 "")) ∧ toUnsigned (atoi (argv.getD 2 "")) ≤ 8
  swap
  · rw [main_of_bad_function atoi argv g h3 hA1 hA8 (by omega)]
    exact reject _ (Or.inr (Or.inr hB))
  · rw [main_of_valid atoi argv g h3 hA1 hA8 hB.1 hB.2]
    refine ⟨⟨fun h => ?_, fun h => ?_⟩, fun _ => ⟨rfl, hB.1⟩⟩
    · obtain ⟨⟨code, hc, _⟩, _⟩ := h
      cases hc
    · rcases h with h | h | h
      · exact absurd h3 h
      · exact absurd ⟨hA1, hA8⟩ h
      · exact absurd hB h

/-- C9.  In every run in which `main` has accepted its arguments and created the
workers, with `k` the function id given: `k` is in 1..8, `bound` is the `k`-th
entry of (512, 500, 5.12, 600, 5.12, 10, 10, 1), `rBound` is `0.1 * bound`, the
selector `functionType` is `k`, so the `switch` of `fitnessEvaluation` does not
take its `default` arm at any position; and no step of a worker changes the
selector. -/
theorem main_sets_bound_and_selector (atoi : String → Int) (argv : List String)
    (g g' : Globals ℝ) (n : Nat) (h : main atoi argv g = .running n g') :
    (1 ≤ toUnsigned (atoi (argv.getD 2 "")) ∧ toUnsigned (atoi (argv.getD 2 "")) ≤ 8)
      ∧ ([512, 500, 5.12, 600, 5.12, 10, 10, 1] : List ℝ).get?
          (toUnsigned (atoi (argv.getD 2 "")) - 1) = some g'.bound
      ∧ g'.rBound = 0.1 * g'.bound
      ∧ g'.functionType = toUnsigned (atoi (argv.getD 2 ""))
      ∧ (∀ p, (fitnessSwitch g'.functionType p).2 = false)
      ∧ (∀ w, (hillClimbStep fitnessEvaluation g' w).2.1.functionType
          = toUnsigned (atoi (argv.getD 2 ""))) := by
  obtain ⟨h3, ⟨hA1, hA8⟩, hB1, hB8⟩ := main_running_valid atoi argv g g' n h
  rw [main_of_valid atoi argv g h3 hA1 hA8 hB1 hB8] at h
  injection h with hn hg
  subst hg
  refine ⟨⟨hB1, hB8⟩, ?_, ?_, rfl, ?_, ?_⟩
  · generalize toUnsigned (atoi (argv.getD 2 "")) = k at hB1 hB8 ⊢
    interval_cases k <;> simp
  · simp only []
    ring
  · intro p
    simp only []
    generalize toUnsigned (atoi (argv.getD 2 "")) = k at hB1 hB8 ⊢
    interval_cases k <;> rfl
  · intro w
    rw [(hillClimbStep_config fitnessEvaluation _ w).1]

/-- Witness for C9: `hillclimb 2 3` is accepted and configures Rastrigin with
bound 5.12. -/
theorem main_sets_bound_and_selector_witness :
    ∃ g' : Globals ℝ, main decimal ["hillclimb", "2", "3"] startGlobals = .running 3 g'
      ∧ g'.bound = 5.12 ∧ g'.rBound = 0.1 * g'.bound ∧ g'.functionType = 3
      ∧ ∀ p, (fitnessSwitch g'.functionType p).2 = false := by
  have hk : toUnsigned (decimal (["hillclimb", "2", "3"].getD 2 "")) = 3 := by decide
  have hrun := main_of_valid decimal ["hillclimb", "2", "3"] (startGlobals : Globals ℝ) rfl
    (by decide) (by decide) (by decide) (by decide)
  rw [hk] at hrun
  have h := main_sets_bound_and_selector decimal ["hillclimb", "2", "3"] startGlobals _ 3 hrun
  rw [hk] at h
  refine ⟨_, hrun, ?_, h.2.2.1, h.2.2.2.1, h.2.2.2.2.1⟩
  have hb := h.2.1
  simp only [Nat.add_one_sub_one, Nat.reduceSub, List.get?_cons_succ, List.get?_cons_zero,
    Option.some.injEq] at hb
  exact hb.symm

end MainClaims

/-! ## Shared best record: claims C6, C7 -/

section SharedBest

variable {K : Type} [LinearOrderedField K]

theorem applyOp_bestResult_le (g : Globals K) (op : SharedOp K) :
    (applyOp g op).bestResult ≤ g.bestResult := by
  cases op with
  | tryPublish position best =>
    simp only [applyOp, publish]
    split_ifs with h
    · exact le_of_lt h
    · exact le_refl _
  | status => exact le_refl _

theorem bestResultTrace_head (g : Globals K) (ops : List (SharedOp K)) :
    (bestResultTrace g ops).head? = some g.bestResult := by
  cases ops <;> rfl

theorem bestResultTrace_chain (g : Globals K) (ops : List (SharedOp K)) :
    List.Chain' (fun before after => after ≤ before) (bestResultTrace g ops) := by
  induction ops generalizing g with
  | nil => exact List.chain'_singleton _
  | cons op ops ih =>
    rw [bestResultTrace, List.chain'_cons']
    refine ⟨fun after hafter => ?_, ih _⟩
    rw [bestResultTrace_head, Option.mem_def, Option.some.injEq] at hafter
    rw [← hafter]
    exact applyOp_bestResult_le g op

/-- C6.  The locked section applied to a worker's `(position, best)` and the
stored record: if `best` is strictly lower than the stored `bestResult`, the
stored record becomes exactly `(position, best)` and one "New minimum" record
showing that pair is written, nothing else changing; otherwise (equal fitness
included) the globals, output included, are unchanged. -/
theorem publish_overwrites_iff_strictly_lower (position : Position K) (best : K)
    (g : Globals K) :
    (best < g.bestResult →
        publish position best g
          = { g with
              bestPosition := position
              bestResult := best
              out := g.out ++ [Output.newMinimum (position, best)] })
      ∧ (g.bestResult ≤ best → publish position best g = g) := by
  constructor
  · intro h
    simp only [publish, h, if_true, printBest]
  · intro h
    simp only [publish, not_lt.mpr h, if_false]

/-- Witness for C6: a stored best of 30, then a candidate with fitness 25 and a
candidate with the equal fitness 30. -/
theorem publish_overwrites_iff_strictly_lower_witness :
    publish ![3, 4] 25 { (startGlobals : Globals ℚ) with bestResult := 30 }
        = { (startGlobals : Globals ℚ) with
            bestPosition := ![3, 4]
            bestResult := 25
            out := [Output.newMinimum (![3, 4], 25)] }
      ∧ publish ![3, 4] 30 { (startGlobals : Globals ℚ) with bestResult := 30 }
        = { (startGlobals : Globals ℚ) with bestResult := 30 } :=
  ⟨(publish_overwrites_iff_strictly_lower ![3, 4] 25
      { (startGlobals : Globals ℚ) with bestResult := 30 }).1 (by norm_num),
    (publish_overwrites_iff_strictly_lower ![3, 4] 30
      { (startGlobals : Globals ℚ) with bestResult := 30 }).2 (le_refl _)⟩

/-- C7.  Along any finite sequence of accesses to the shared record (the locked
section run by any workers with any arguments, and status queries in between) the
stored `bestResult` never increases: each access leaves a value `≤` the one
before it, the successive values form a non-increasing chain, and the chain
starts at `DBL_MAX`, the value of the static initialiser. -/
theorem bestResult_non_increasing (ops : List (SharedOp K)) :
    (∀ (g : Globals K) (op : SharedOp K), (applyOp g op).bestResult ≤ g.bestResult)
      ∧ (∀ g : Globals K,
          List.Chain' (fun before after => after ≤ before) (bestResultTrace g ops))
      ∧ (bestResultTrace (startGlobals : Globals K) ops).head? = some DBL_MAX
      ∧ (∀ v ∈ bestResultTrace (startGlobals : Globals K) ops, v ≤ DBL_MAX) := by
  refine ⟨applyOp_bestResult_le, fun g => bestResultTrace_chain g ops,
    bestResultTrace_head _ ops, ?_⟩
  have hall : ∀ (l : List (SharedOp K)) (g : Globals K), ∀ v ∈ bestResultTrace g l,
      v ≤ g.bestResult := by
    intro l
    induction l with
    | nil =>
      intro g v hv
      rw [bestResultTrace, List.mem_singleton] at hv
      exact le_of_eq hv
    | cons op l ih =>
      intro g v hv
      rw [bestResultTrace, List.mem_cons] at hv
      rcases hv with hv | hv
      · exact le_of_eq hv
      · exact le_trans (ih _ v hv) (applyOp_bestResult_le g op)
  exact hall ops startGlobals

end SharedBest

/-! ## Sampling: lemmas on `toInt` and `getRandPosition` -/

section Draws

variable {K : Type} [LinearOrderedField K]

theorem getRandPosition_mem (l h : Int) (rng : Rand K) (hlh : l ≤ h)
    (hr : ∀ n, 0 ≤ rng n ∧ rng n ≤ 1) (i : Fin DIMENSIONS) :
    (l : K) ≤ (getRandPosition l h rng).1 i ∧ (getRandPosition l h rng).1 i ≤ (h : K) := by
  have hd : (0 : K) ≤ ((h - l : Int) : K) := by
    exact_mod_cast sub_nonneg.mpr hlh
  have hcast : ((h - l : Int) : K) = (h : K) - (l : K) := by push_cast; ring
  obtain ⟨h0, h1⟩ := hr i.val
  simp only [getRandPosition]
  constructor
  · have := mul_nonneg h0 hd
    linarith
  · have := mul_le_mul_of_nonneg_right h1 hd
    rw [one_mul] at this
    linarith

theorem getRandPosition_rest (l h : Int) (rng : Rand K)
    (hr : ∀ n, 0 ≤ rng n ∧ rng n ≤ 1) :
    ∀ n, 0 ≤ (getRandPosition l h rng).2 n ∧ (getRandPosition l h rng).2 n ≤ 1 :=
  fun n => hr (n + DIMENSIONS)

end Draws

section Sampling

variable {K : Type} [LinearOrderedField K] [FloorRing K]

theorem toInt_of_nonneg {x : K} (h : 0 ≤ x) : toInt x = ⌊x⌋ := by
  simp only [toInt, h, if_true]

theorem toInt_of_neg {x : K} (h : x < 0) : toInt x = ⌈x⌉ := by
  simp only [toInt, not_le.mpr h, if_false]

theorem toInt_nonneg_le {x : K} (h : 0 ≤ x) : 0 ≤ toInt x ∧ ((toInt x : Int) : K) ≤ x := by
  rw [toInt_of_nonneg h]
  exact ⟨Int.floor_nonneg.mpr h, Int.floor_le x⟩

theorem toInt_nonpos_ge {x : K} (h : x ≤ 0) : toInt x ≤ 0 ∧ x ≤ ((toInt x : Int) : K) := by
  rcases h.lt_or_eq with h | h
  · rw [toInt_of_neg h]
    exact ⟨Int.ceil_le.mpr (by simpa using h.le), Int.le_ceil x⟩
  · subst h
    simp [toInt]

theorem toInt_neg (x : K) : toInt (-x) = -toInt x := by
  rcases lt_trichotomy x 0 with h | h | h
  · rw [toInt_of_neg h, toInt_of_nonneg (by linarith : (0 : K) ≤ -x), Int.floor_neg]
  · subst h
    simp [toInt]
  · rw [toInt_of_nonneg h.le, toInt_of_neg (by linarith : -x < 0), Int.ceil_neg]

theorem toInt_mono {x y : K} (h : x ≤ y) : toInt x ≤ toInt y := by
  by_cases hx : 0 ≤ x
  · rw [toInt_of_nonneg hx, toInt_of_nonneg (le_trans hx h)]
    exact Int.floor_mono h
  · have hx' : x < 0 := not_le.mp hx
    by_cases hy : 0 ≤ y
    · exact le_trans (toInt_nonpos_ge hx'.le).1 (toInt_nonneg_le hy).1
    · rw [toInt_of_neg hx', toInt_of_neg (not_le.mp hy)]
      exact Int.ceil_mono h

/-! ## Sampling: claim C10 -/

/-- Where the containment does hold: the two calls of the program,
`getRandPosition(-bound, bound)` and `getRandPosition(-rBound, rBound)`.  For a
real `b` with `0 ≤ b < 2 ^ 30` the narrowed arguments and their difference `h - l`
are within the range of a 32-bit `int`, and for draws in `[0, 1]` every component
of `getRandPosition(-b, b)` lies in `[-b, b]`: narrowing toward zero only shrinks
an interval that contains zero. -/
theorem getRandPosition_symmetric_within (b : K) (rng : Rand K)
    (hb0 : 0 ≤ b) (hb : b < 2 ^ 30) (hr : ∀ n, 0 ≤ rng n ∧ rng n ≤ 1) (i : Fin DIMENSIONS) :
    (-(2 ^ 31 : Int) ≤ toInt (-b) ∧ toInt b < 2 ^ 31
        ∧ -(2 ^ 31 : Int) ≤ toInt b - toInt (-b) ∧ toInt b - toInt (-b) < 2 ^ 31)
      ∧ -b ≤ (getRandPosition (toInt (-b)) (toInt b) rng).1 i
      ∧ (getRandPosition (toInt (-b)) (toInt b) rng).1 i ≤ b := by
  have hmem := getRandPosition_mem (toInt (-b)) (toInt b) rng
    (toInt_mono (by linarith)) hr i
  obtain ⟨h0, hle⟩ := toInt_nonneg_le hb0
  have hlt : toInt b < 2 ^ 30 := by
    have h : ((toInt b : Int) : K) < ((2 ^ 30 : Int) : K) := by
      push_cast
      exact lt_of_le_of_lt hle (by norm_num at hb ⊢; exact hb)
    exact_mod_cast h
  have hneg : toInt (-b) = -toInt b := toInt_neg b
  refine ⟨⟨by omega, by omega, by omega, by omega⟩, ?_, le_trans hmem.2 hle⟩
  exact le_trans (toInt_nonpos_ge (by linarith : -b ≤ 0)).2 hmem.1

end Sampling

/-! ## The worker: lemmas on the bounds check and the neighbour loop -/

section WorkerLemmas

variable {K : Type} [LinearOrderedField K]

theorem checkInBounds_iff (p : Position K) (l h : Int) :
    checkInBounds p l h = true ↔ ∀ i : Fin DIMENSIONS, (l : K) ≤ p i ∧ p i ≤ (h : K) := by
  simp only [checkInBounds, range_DIMENSIONS, List.all_cons, List.all_nil, Bool.and_true,
    Bool.and_eq_true, Bool.not_eq_true', Bool.or_eq_false_iff, decide_eq_false_iff_not,
    idx_zero, idx_one, gt_iff_lt, not_lt, Fin.forall_fin_two]
  tauto

variable [FloorRing K]

theorem neighbor_bound (fitness : Position K → K) (rBound : K) (hrb : 0 ≤ rBound) (M : K)
    (st : Position K × K × Rand K) (hp : ∀ i, |st.1 i| ≤ M)
    (hr : ∀ n, 0 ≤ st.2.2 n ∧ st.2.2 n ≤ 1) :
    (∀ i, |(neighbor fitness rBound st).1 i| ≤ M + ((toInt rBound : Int) : K))
      ∧ (∀ n, 0 ≤ (neighbor fitness rBound st).2.2 n ∧ (neighbor fitness rBound st).2.2 n ≤ 1) := by
  have hrb0 : (0 : K) ≤ ((toInt rBound : Int) : K) := by
    exact_mod_cast (toInt_nonneg_le hrb).1
  have hlh : toInt (-rBound) ≤ toInt rBound := toInt_mono (by linarith)
  have hrest := getRandPosition_rest (toInt (-rBound)) (toInt rBound) st.2.2 hr
  simp only [neighbor]
  split_ifs with hlt
  · refine ⟨fun i => ?_, hrest⟩
    have hs := getRandPosition_mem (toInt (-rBound)) (toInt rBound) st.2.2 hlh hr i
    have hneg : ((toInt (-rBound) : Int) : K) = -((toInt rBound : Int) : K) := by
      rw [toInt_neg, Int.cast_neg]
    have hpi := abs_le.mp (hp i)
    show |(getRandPosition (toInt (-rBound)) (toInt rBound) st.2.2).1 i + st.1 i|
      ≤ M + ((toInt rBound : Int) : K)
    rw [abs_le]
    constructor <;> linarith [hs.1, hs.2, hpi.1, hpi.2]
  · refine ⟨fun i => ?_, hrest⟩
    exact le_trans (hp i) (by linarith)

theorem neighbor_fold_bound (fitness : Position K → K) (rBound : K) (hrb : 0 ≤ rBound)
    (l : List Nat) (M : K) (st : Position K × K × Rand K) (hp : ∀ i, |st.1 i| ≤ M)
    (hr : ∀ n, 0 ≤ st.2.2 n ∧ st.2.2 n ≤ 1) :
    ∀ i, |(l.foldl (fun st _ => neighbor fitness rBound st) st).1 i|
      ≤ M + (l.length : K) * ((toInt rBound : Int) : K) := by
  induction l generalizing M st with
  | nil =>
    intro i
    simpa using hp i
  | cons a l ih =>
    intro i
    obtain ⟨hp', hr'⟩ := neighbor_bound fitness rBound hrb M st hp hr
    have := ih (M + ((toInt rBound : Int) : K)) (neighbor fitness rBound st) hp' hr' i
    rw [List.foldl_cons, List.length_cons]
    push_cast
    linarith

theorem locked_position_bound (fitness : Nat → Position K → K) (g : Globals K) (w : Worker K)
    (hrb : 0 ≤ g.rBound)
    (hr : ∀ n, 0 ≤ drawsOf w n ∧ drawsOf w n ≤ 1)
    (position : Position K) (best : K)
    (hact : (hillClimbStep fitness g w).1 = Action.locked position best) (i : Fin DIMENSIONS) :
    |position i| ≤ ((toInt g.bound : Int) : K) + (NEIGHBORS : K) * ((toInt g.rBound : Int) : K) := by
  cases w with
  | outer rng =>
    simp only [hillClimbStep] at hact
    split_ifs at hact
  | returned => cases hact
  | inner p b rng =>
    simp only [hillClimbStep] at hact
    split_ifs at hact with hin
    injection hact with hpos _
    rw [← hpos]
    rw [checkInBounds_iff, toInt_neg, Int.cast_neg] at hin
    have h := neighbor_fold_bound (fitness g.functionType) g.rBound hrb (List.range NEIGHBORS)
      ((toInt g.bound : Int) : K) (p, b, rng) (fun j => abs_le.mpr (hin j)) hr i
    simpa [neighborLoop] using h

end WorkerLemmas

/-! ## The worker on Sum Squares at the corner `(10, 10)` -/

theorem sumSquares_apply (p : Position ℝ) :
    fitnessEvaluation 7 p = 1 * p 0 ^ 2 + 2 * p 1 ^ 2 := by
  simp only [fitnessEvaluation, fitnessSwitch, sumSquaresFunction, range_DIMENSIONS, List.foldl,
    idx_zero, idx_one]
  norm_num

theorem sumSquaresGlobals_toInt :
    toInt (sumSquaresGlobals : Globals ℝ).bound = 10
      ∧ toInt (-(sumSquaresGlobals : Globals ℝ).bound) = -10
      ∧ toInt (sumSquaresGlobals : Globals ℝ).rBound = 1
      ∧ toInt (-(sumSquaresGlobals : Globals ℝ).rBound) = -1 := by
  have hb : toInt (sumSquaresGlobals : Globals ℝ).bound = 10 := by
    rw [toInt_of_nonneg (by norm_num [sumSquaresGlobals]), Int.floor_eq_iff]
    norm_num [sumSquaresGlobals]
  have hr : toInt (sumSquaresGlobals : Globals ℝ).rBound = 1 := by
    rw [toInt_of_nonneg (by norm_num [sumSquaresGlobals]), Int.floor_eq_iff]
    norm_num [sumSquaresGlobals]
  refine ⟨hb, ?_, hr, ?_⟩
  · rw [toInt_neg, hb]
  · rw [toInt_neg, hr]

theorem edgeDraws_unit {K : Type} [LinearOrderedField K] (n : Nat) :
    0 ≤ (edgeDraws : Rand K) n ∧ (edgeDraws : Rand K) n ≤ 1 := by
  unfold edgeDraws
  split_ifs <;> constructor <;> norm_num

theorem corner_sampled :
    hillClimbStep fitnessEvaluation (sumSquaresGlobals : Globals ℝ) (.outer edgeDraws)
      = (Action.sampled ![10, 10] 300, sumSquaresGlobals,
          Worker.inner ![10, 10] 300 (fun n => edgeDraws (n + 2))) := by
  have hp : (getRandPosition (-10) 10 (edgeDraws : Rand ℝ)).1 = ![10, 10] := by
    funext i
    fin_cases i <;> norm_num [getRandPosition, edgeDraws]
  have hf : fitnessEvaluation 7 ![10, 10] = 300 := by
    rw [sumSquares_apply]
    norm_num
  obtain ⟨hb, hnb, -, -⟩ := sumSquaresGlobals_toInt
  simp only [hillClimbStep, hb, hnb]
  simp only [sumSquaresGlobals, hp, hf, if_true]
  rfl

theorem corner_neighbor_accept :
    neighbor (fitnessEvaluation 7) (sumSquaresGlobals : Globals ℝ).rBound
        (![10, 10], 300, fun n => edgeDraws (n + 2))
      = (![11, 9], 283, fun n => edgeDraws (n + 4)) := by
  obtain ⟨-, -, hr, hnr⟩ := sumSquaresGlobals_toInt
  have hp : (fun j => (getRandPosition (-1) 1 (fun n => (edgeDraws : Rand ℝ) (n + 2))).1 j
      + (![10, 10] : Position ℝ) j) = ![11, 9] := by
    funext j
    fin_cases j <;> norm_num [getRandPosition, edgeDraws]
  have hf : fitnessEvaluation 7 ![11, 9] = 283 := by
    rw [sumSquares_apply]
    norm_num
  simp only [neighbor, hr, hnr, hp, hf]
  norm_num [getRandPosition]

theorem corner_neighbor_reject (k : Nat) (hk : k = 4 ∨ k = 6 ∨ k = 8) :
    neighbor (fitnessEvaluation 7) (sumSquaresGlobals : Globals ℝ).rBound
        (![11, 9], 283, fun n => edgeDraws (n + k))
      = (![11, 9], 283, fun n => edgeDraws (n + (k + 2))) := by
  obtain ⟨-, -, hr, hnr⟩ := sumSquaresGlobals_toInt
  have hp : (fun j => (getRandPosition (-1) 1 (fun n => (edgeDraws : Rand ℝ) (n + k))).1 j
      + (![11, 9] : Position ℝ) j) = ![10, 10] := by
    funext j
    rcases hk with hk | hk | hk <;> subst hk <;> fin_cases j <;>
      norm_num [getRandPosition, edgeDraws]
  have hf : fitnessEvaluation 7 ![10, 10] = 300 := by
    rw [sumSquares_apply]
    norm_num
  simp only [neighbor, hr, hnr, hp, hf]
  norm_num [getRandPosition, add_assoc, add_comm 2 k]

theorem corner_locked :
    hillClimbStep fitnessEvaluation (sumSquaresGlobals : Globals ℝ)
        (Worker.inner ![10, 10] 300 (fun n => edgeDraws (n + 2)))
      = (Action.locked ![11, 9] 283, publish ![11, 9] 283 sumSquaresGlobals,
          Worker.inner ![11, 9] 283 (fun n => edgeDraws (n + 10))) := by
  obtain ⟨hb, hnb, -, -⟩ := sumSquaresGlobals_toInt
  have hin : checkInBounds (![10, 10] : Position ℝ) (-10) 10 = true := by
    rw [checkInBounds_iff]
    intro i
    fin_cases i <;> norm_num
  have hloop : neighborLoop (fitnessEvaluation 7) (sumSquaresGlobals : Globals ℝ).rBound
      (![10, 10], 300, fun n => edgeDraws (n + 2))
      = (![11, 9], 283, fun n => edgeDraws (n + 10)) := by
    have hrange : List.range NEIGHBORS = [0, 1, 2, 3] := by decide
    simp only [neighborLoop, hrange, List.foldl]
    rw [corner_neighbor_accept, corner_neighbor_reject 4 (Or.inl rfl),
      corner_neighbor_reject 6 (Or.inr (Or.inl rfl)),
      corner_neighbor_reject 8 (Or.inr (Or.inr rfl))]
  have hft : (sumSquaresGlobals : Globals ℝ).functionType = 7 := rfl
  simp only [hillClimbStep, hb, hnb, hin, if_true, hft, hloop]

theorem main_sumSquares :
    main decimal ["hillclimb", "1", "7"] (startGlobals : Globals ℝ)
      = .running 7 sumSquaresGlobals := by
  have hk : toUnsigned (decimal (["hillclimb", "1", "7"].getD 2 "")) = 7 := by decide
  rw [main_of_valid decimal ["hillclimb", "1", "7"] startGlobals rfl (by decide) (by decide)
    (by decide) (by decide), hk]
  simp [sumSquaresGlobals, startGlobals]

/-! ## The worker: claim C3 -/

/-- C3 (fails as stated).  Run `hillclimb 1 7` (Sum Squares, bound 10) with a
random stream of extreme draws.  The worker samples the corner `(10, 10)`, which
is in bounds; its first neighbour `(11, 9)` has the lower fitness 283 and is
adopted, the three others are rejected; the locked section is then entered with
the position `(11, 9)`, which becomes `bestPosition`, and `11` exceeds the
bound. -/
theorem locked_position_outside_bound :
    main decimal ["hillclimb", "1", "7"] (startGlobals : Globals ℝ)
        = .running 7 sumSquaresGlobals
      ∧ (∀ n, 0 ≤ (edgeDraws : Rand ℝ) n ∧ (edgeDraws : Rand ℝ) n ≤ 1)
      ∧ (hillClimbStep fitnessEvaluation
            (hillClimbStep fitnessEvaluation sumSquaresGlobals (.outer edgeDraws)).2.1
            (hillClimbStep fitnessEvaluation sumSquaresGlobals (.outer edgeDraws)).2.2).1
          = Action.locked ![11, 9] 283
      ∧ (hillClimbStep fitnessEvaluation
            (hillClimbStep fitnessEvaluation sumSquaresGlobals (.outer edgeDraws)).2.1
            (hillClimbStep fitnessEvaluation sumSquaresGlobals (.outer edgeDraws)).2.2).2.1.bestPosition
          = ![11, 9]
      ∧ ¬ ((![11, 9] : Position ℝ) 0 ≤ (sumSquaresGlobals : Globals ℝ).bound) := by
  refine ⟨main_sumSquares, edgeDraws_unit, ?_, ?_, ?_⟩
  · rw [corner_sampled]
    simp only []
    rw [corner_locked]
  · rw [corner_sampled]
    simp only []
    rw [corner_locked]
    have hlt : (283 : ℝ) < (sumSquaresGlobals : Globals ℝ).bestResult := by
      norm_num [sumSquaresGlobals, startGlobals, DBL_MAX]
    simp only [publish, hlt, if_true]
  · norm_num [sumSquaresGlobals]

/-- C3 (amended).  Every position a worker passes to the locked section is the
outcome of one pass of the neighbour loop from a position that passed the bounds
check, so each of its components is within `bound + 4 * rBound` of zero, both
truncated toward zero as the `int` parameters do; with `rBound = 0.10 * bound`
that is within `[-1.4 * bound, 1.4 * bound]`.  This holds for every function id
(every value of the selector), every start position and every sequence of draws
in `[0, 1]`. -/
theorem locked_position_within_widened_bound (g : Globals ℝ) (w : Worker ℝ)
    (hb : 0 ≤ g.bound) (hrb : g.rBound = g.bound * 0.10)
    (hr : ∀ n, 0 ≤ drawsOf w n ∧ drawsOf w n ≤ 1)
    (position : Position ℝ) (best : ℝ)
    (hact : (hillClimbStep fitnessEvaluation g w).1 = Action.locked position best)
    (i : Fin DIMENSIONS) :
    |position i| ≤ ((toInt g.bound : Int) : ℝ) + (NEIGHBORS : ℝ) * ((toInt g.rBound : Int) : ℝ)
      ∧ |position i| ≤ 1.4 * g.bound := by
  have hrb0 : 0 ≤ g.rBound := by rw [hrb]; positivity
  have h := locked_position_bound fitnessEvaluation g w hrb0 hr position best hact i
  refine ⟨h, le_trans h ?_⟩
  have h1 := (toInt_nonneg_le hb).2
  have h2 := (toInt_nonneg_le hrb0).2
  rw [hrb] at h2
  rw [hrb]
  norm_num at h2 ⊢
  linarith

/-- Witness for C3 (amended): the pass of the neighbour loop from the corner
`(10, 10)` on Sum Squares, which enters the locked section with `(11, 9)`. -/
theorem locked_position_within_widened_bound_witness :
    |(![11, 9] : Position ℝ) 0|
        ≤ ((toInt (sumSquaresGlobals : Globals ℝ).bound : Int) : ℝ)
          + (NEIGHBORS : ℝ) * ((toInt (sumSquaresGlobals : Globals ℝ).rBound : Int) : ℝ)
      ∧ |(![11, 9] : Position ℝ) 0| ≤ 1.4 * (sumSquaresGlobals : Globals ℝ).bound :=
  locked_position_within_widened_bound sumSquaresGlobals
    (Worker.inner ![10, 10] 300 (fun n => edgeDraws (n + 2)))
    (by norm_num [sumSquaresGlobals]) rfl (fun n => edgeDraws_unit (n + 2))
    ![11, 9] 283 (by rw [corner_locked]) 0

/-! ## Benchmark library: values at an arbitrary position -/

theorem position_eta {K : Type} (p : Position K) : p = ![p 0, p 1] := by
  funext i
  fin_cases i <;> rfl

theorem rastrigin_apply (p : Position ℝ) :
    fitnessEvaluation 3 p
      = 10 * 2 + ((p 0 ^ 2 - 10 * Real.cos (2 * Real.pi * p 0))
          + (p 1 ^ 2 - 10 * Real.cos (2 * Real.pi * p 1))) := by
  conv_lhs => rw [position_eta p]
  exact rastriginFunction_eq (p 0) (p 1)

theorem griewank_apply (p : Position ℝ) :
    fitnessEvaluation 4 p
      = (p 0 ^ 2 / 4000 + p 1 ^ 2 / 4000)
          - Real.cos (p 0 / Real.sqrt 1) * Real.cos (p 1 / Real.sqrt 2) + 1 := by
  conv_lhs => rw [position_eta p]
  exact griewankFunction_eq (p 0) (p 1)

theorem sphere_apply (p : Position ℝ) : fitnessEvaluation 5 p = p 0 ^ 2 + p 1 ^ 2 := by
  conv_lhs => rw [position_eta p]
  exact sphereFunction_eq (p 0) (p 1)

theorem dixonPrice_apply (p : Position ℝ) :
    fitnessEvaluation 6 p = (p 0 - 1) ^ 2 + 2 * (2 * p 1 ^ 2 - p 0) ^ 2 := by
  conv_lhs => rw [position_eta p]
  exact dixonPriceFunction_eq (p 0) (p 1)

theorem sumDifferentPowers_apply (p : Position ℝ) :
    fitnessEvaluation 8 p = |p 0| ^ 1 + |p 1| ^ 2 := by
  conv_lhs => rw [position_eta p]
  exact sumDifferentPowersFunction_eq (p 0) (p 1)

theorem cos_mul_cos_le_one (a b : ℝ) : Real.cos a * Real.cos b ≤ 1 := by
  nlinarith [Real.cos_le_one a, Real.cos_le_one b, Real.neg_one_le_cos a, Real.neg_one_le_cos b,
    mul_nonneg (sub_nonneg.mpr (Real.cos_le_one a)) (by linarith [Real.neg_one_le_cos b] :
      (0 : ℝ) ≤ 1 + Real.cos b),
    mul_nonneg (by linarith [Real.neg_one_le_cos a] : (0 : ℝ) ≤ 1 + Real.cos a)
      (sub_nonneg.mpr (Real.cos_le_one b))]

/-! ## Benchmark library: claim C20 -/

/-- C20.  At every real position the functions with ids 3 to 8 (Rastrigin,
Griewank, Sphere, Dixon-Price, Sum Squares, Sum of Different Powers) as coded
return a value `≥ 0`; hence the value at the published optimum, the origin or
`(1, 2^(-1/2))` for Dixon-Price, is a minimum over the whole plane. -/
theorem fitness_nonneg_everywhere (p : Position ℝ) :
    (0 ≤ fitnessEvaluation 3 p ∧ 0 ≤ fitnessEvaluation 4 p ∧ 0 ≤ fitnessEvaluation 5 p
        ∧ 0 ≤ fitnessEvaluation 6 p ∧ 0 ≤ fitnessEvaluation 7 p ∧ 0 ≤ fitnessEvaluation 8 p)
      ∧ (fitnessEvaluation 3 ![0, 0] ≤ fitnessEvaluation 3 p
        ∧ fitnessEvaluation 4 ![0, 0] ≤ fitnessEvaluation 4 p
        ∧ fitnessEvaluation 5 ![0, 0] ≤ fitnessEvaluation 5 p
        ∧ fitnessEvaluation 6 ![1, (2 : ℝ) ^ (-(1 / 2) : ℝ)] ≤ fitnessEvaluation 6 p
        ∧ fitnessEvaluation 7 ![0, 0] ≤ fitnessEvaluation 7 p
        ∧ fitnessEvaluation 8 ![0, 0] ≤ fitnessEvaluation 8 p) := by
  have h3 : 0 ≤ fitnessEvaluation 3 p := by
    rw [rastrigin_apply]
    nlinarith [sq_nonneg (p 0), sq_nonneg (p 1), Real.cos_le_one (2 * Real.pi * p 0),
      Real.cos_le_one (2 * Real.pi * p 1)]
  have h4 : 0 ≤ fitnessEvaluation 4 p := by
    rw [griewank_apply]
    have hc := cos_mul_cos_le_one (p 0 / Real.sqrt 1) (p 1 / Real.sqrt 2)
    have h0 : 0 ≤ p 0 ^ 2 / 4000 := by positivity
    have h1 : 0 ≤ p 1 ^ 2 / 4000 := by positivity
    linarith
  have h5 : 0 ≤ fitnessEvaluation 5 p := by
    rw [sphere_apply]
    positivity
  have h6 : 0 ≤ fitnessEvaluation 6 p := by
    rw [dixonPrice_apply]
    positivity
  have h7 : 0 ≤ fitnessEvaluation 7 p := by
    rw [sumSquares_apply]
    positivity
  have h8 : 0 ≤ fitnessEvaluation 8 p := by
    rw [sumDifferentPowers_apply]
    positivity
  have hsq : ((2 : ℝ) ^ (-(1 / 2) : ℝ)) ^ 2 = 1 / 2 := by
    rw [← Real.rpow_natCast, ← Real.rpow_mul (by norm_num : (0 : ℝ) ≤ 2)]
    norm_num
  have z3 : fitnessEvaluation 3 ![0, 0] = 0 := by
    rw [rastrigin_apply]; norm_num
  have z4 : fitnessEvaluation 4 ![0, 0] = 0 := by
    rw [griewank_apply]; norm_num
  have z5 : fitnessEvaluation 5 ![0, 0] = 0 := by
    rw [sphere_apply]; norm_num
  have z6 : fitnessEvaluation 6 ![1, (2 : ℝ) ^ (-(1 / 2) : ℝ)] = 0 := by
    rw [dixonPrice_apply]
    simp only [Matrix.cons_val_zero, Matrix.cons_val_one, Matrix.head_cons, hsq]
    norm_num
  have z7 : fitnessEvaluation 7 ![0, 0] = 0 := by
    rw [sumSquares_apply]; norm_num
  have z8 : fitnessEvaluation 8 ![0, 0] = 0 := by
    rw [sumDifferentPowers_apply]; norm_num
  refine ⟨⟨h3, h4, h5, h6, h7, h8⟩, ?_, ?_, ?_, ?_, ?_, ?_⟩
  · rw [z3]; exact h3
  · rw [z4]; exact h4
  · rw [z5]; exact h5
  · rw [z6]; exact h6
  · rw [z7]; exact h7
  · rw [z8]; exact h8

/-! ## The worker on Sphere: the `int` parameters at bound 5.12 -/

theorem main_sphere :
    main decimal ["hillclimb", "1", "5"] (startGlobals : Globals ℝ)
      = .running 5 sphereGlobals := by
  have hk : toUnsigned (decimal (["hillclimb", "1", "5"].getD 2 "")) = 5 := by decide
  rw [main_of_valid decimal ["hillclimb", "1", "5"] startGlobals rfl (by decide) (by decide)
    (by decide) (by decide), hk]
  simp [sphereGlobals, startGlobals]

theorem sphereGlobals_toInt :
    toInt (sphereGlobals : Globals ℝ).bound = 5
      ∧ toInt (-(sphereGlobals : Globals ℝ).bound) = -5
      ∧ toInt (sphereGlobals : Globals ℝ).rBound = 0
      ∧ toInt (-(sphereGlobals : Globals ℝ).rBound) = 0 := by
  have hb : toInt (sphereGlobals : Globals ℝ).bound = 5 := by
    rw [toInt_of_nonneg (by norm_num [sphereGlobals]), Int.floor_eq_iff]
    norm_num [sphereGlobals]
  have hr : toInt (sphereGlobals : Globals ℝ).rBound = 0 := by
    rw [toInt_of_nonneg (by norm_num [sphereGlobals]), Int.floor_eq_iff]
    norm_num [sphereGlobals]
  refine ⟨hb, ?_, hr, ?_⟩
  · rw [toInt_neg, hb]
  · rw [toInt_neg, hr]
    rfl

theorem getRandPosition_zero {K : Type} [LinearOrderedField K] (rng : Rand K) :
    (getRandPosition 0 0 rng).1 = fun _ => 0 := by
  funext j
  simp [getRandPosition]

/-! ## The worker: claims C11, C12 -/

/-- C11 (defect in the code).  For Sphere (`hillclimb 1 5`, bound 5.12) the
perturbation radius `0.1 * bound` is 0.512 and the draw `r = 1` should give the
component `-0.512 + 1 * 1.024 = 0.512`; the code passes `-rBound` and `rBound`
to `int` parameters, both become 0, and every component of every perturbation
vector is 0 whatever the draws. -/
theorem sphere_perturbation_is_zero :
    main decimal ["hillclimb", "1", "5"] (startGlobals : Globals ℝ)
        = .running 5 sphereGlobals
      ∧ (sphereGlobals : Globals ℝ).rBound = 0.1 * (sphereGlobals : Globals ℝ).bound
      ∧ -(0.1 * (sphereGlobals : Globals ℝ).bound)
          + 1 * (0.2 * (sphereGlobals : Globals ℝ).bound) = 0.512
      ∧ (∀ (rng : Rand ℝ) (j : Fin DIMENSIONS),
          (getRandPosition (toInt (-(sphereGlobals : Globals ℝ).rBound))
            (toInt (sphereGlobals : Globals ℝ).rBound) rng).1 j = 0)
      ∧ (getRandPosition (toInt (-(sphereGlobals : Globals ℝ).rBound))
            (toInt (sphereGlobals : Globals ℝ).rBound) (fun _ : Nat => (1 : ℝ))).1 0
          ≠ -(0.1 * (sphereGlobals : Globals ℝ).bound)
              + 1 * (0.2 * (sphereGlobals : Globals ℝ).bound) := by
  obtain ⟨-, -, hr, hnr⟩ := sphereGlobals_toInt
  have hz : ∀ (rng : Rand ℝ) (j : Fin DIMENSIONS),
      (getRandPosition (toInt (-(sphereGlobals : Globals ℝ).rBound))
        (toInt (sphereGlobals : Globals ℝ).rBound) rng).1 j = 0 := by
    intro rng j
    rw [hr, hnr, getRandPosition_zero]
  refine ⟨main_sphere, by norm_num [sphereGlobals], by norm_num [sphereGlobals], hz, ?_⟩
  rw [hz]
  norm_num [sphereGlobals]

/-- C12 (defect in the code).  For Sphere (bound 5.12) the position `(5.1, 0)`
has both components in `[-5.12, 5.12]`, yet `checkInBounds(position, -bound,
bound)` is false, because its `int` parameters receive `-5` and `5`; a worker at
the test of the inner loop with that position goes back to the outer loop
(Restart) instead of repeating Searching. -/
theorem sphere_bounds_check_truncated :
    (∀ i, -(sphereGlobals : Globals ℝ).bound ≤ (![5.1, 0] : Position ℝ) i
        ∧ (![5.1, 0] : Position ℝ) i ≤ (sphereGlobals : Globals ℝ).bound)
      ∧ checkInBounds (![5.1, 0] : Position ℝ) (toInt (-(sphereGlobals : Globals ℝ).bound))
          (toInt (sphereGlobals : Globals ℝ).bound) = false
      ∧ (∀ (best : ℝ) (rng : Rand ℝ),
          hillClimbStep fitnessEvaluation (sphereGlobals : Globals ℝ)
              (Worker.inner ![5.1, 0] best rng)
            = (Action.leftBounds, sphereGlobals, Worker.outer rng)) := by
  obtain ⟨hb, hnb, -, -⟩ := sphereGlobals_toInt
  have hout : checkInBounds (![5.1, 0] : Position ℝ) (-5) 5 = false := by
    rw [Bool.eq_false_iff, Ne, checkInBounds_iff]
    intro h
    have := (h 0).2
    norm_num at this
  refine ⟨?_, ?_, ?_⟩
  · intro i
    fin_cases i <;> norm_num [sphereGlobals]
  · rw [hb, hnb]
    exact hout
  · intro best rng
    simp only [hillClimbStep, hb, hnb, hout]
    rfl

/-! ## Shutdown: claim C14 -/

/-- C14 (defect in the code).  Run `hillclimb 1 5`: while `continuing` holds the
wait loop of `main` keeps waiting; as soon as the interrupt handler has cleared
`continuing` the test `continuing && occupied > 0` fails, whatever `occupied` is,
so the loop exits and `main` prints the final report and returns 0 with
`occupied = 5`, no worker having terminated. -/
theorem wait_loop_exits_with_workers_alive :
    main decimal ["hillclimb", "1", "5"] (startGlobals : Globals ℝ)
        = .running 5 sphereGlobals
      ∧ waitLoop (sphereGlobals : Globals ℝ) = none
      ∧ waitLoop (interrupted (sphereGlobals : Globals ℝ))
          = some (0, finalReport (interrupted sphereGlobals))
      ∧ (interrupted (sphereGlobals : Globals ℝ)).occupied = 5
      ∧ (∀ g : Globals ℝ, g.continuing = false → waitLoop g = some (0, finalReport g)) := by
  refine ⟨main_sphere, ?_, ?_, rfl, ?_⟩
  · simp [waitLoop, sphereGlobals]
  · simp [waitLoop, interrupted]
  · intro g hg
    simp [waitLoop, hg]

/-! ## The worker when the perturbation radius truncates to zero -/

theorem interrupted_config {K : Type} (g : Globals K) :
    (interrupted g).functionType = g.functionType ∧ (interrupted g).bound = g.bound
      ∧ (interrupted g).rBound = g.rBound :=
  ⟨rfl, rfl, rfl⟩

theorem checkBest_config {K : Type} (g : Globals K) :
    (checkBest g).functionType = g.functionType ∧ (checkBest g).bound = g.bound
      ∧ (checkBest g).rBound = g.rBound :=
  ⟨rfl, rfl, rfl⟩

section Inert

variable {K : Type} [LinearOrderedField K] [FloorRing K]

theorem neighbor_inert (fitness : Position K → K) (rBound : K) (h0 : toInt rBound = 0)
    (position : Position K) (rng : Rand K) :
    neighbor fitness rBound (position, fitness position, rng)
      = (position, fitness position, fun n => rng (n + DIMENSIONS)) := by
  have hn : toInt (-rBound) = 0 := by rw [toInt_neg, h0]; rfl
  have hp : (fun j => (getRandPosition 0 0 rng).1 j + position j : Position K) = position := by
    funext j
    simp [getRandPosition]
  simp only [neighbor, h0, hn, hp, lt_irrefl, if_false]
  rfl

theorem neighbor_fold_inert (fitness : Position K → K) (rBound : K) (h0 : toInt rBound = 0)
    (position : Position K) (l : List Nat) (rng : Rand K) :
    ∃ rng', l.foldl (fun st _ => neighbor fitness rBound st) (position, fitness position, rng)
      = (position, fitness position, rng') := by
  induction l generalizing rng with
  | nil => exact ⟨rng, rfl⟩
  | cons a l ih =>
    rw [List.foldl_cons, neighbor_inert fitness rBound h0]
    exact ih _

theorem hillClimbStep_inert (fitness : Nat → Position K → K) (g : Globals K)
    (h0 : toInt g.rBound = 0) (position : Position K) (rng : Rand K)
    (hin : checkInBounds position (toInt (-g.bound)) (toInt g.bound) = true) :
    ∃ rng', hillClimbStep fitness g (.inner position (fitness g.functionType position) rng)
      = (Action.locked position (fitness g.functionType position),
          publish position (fitness g.functionType position) g,
          Worker.inner position (fitness g.functionType position) rng') := by
  obtain ⟨rng', h⟩ := neighbor_fold_inert (fitness g.functionType) g.rBound h0 position
    (List.range NEIGHBORS) rng
  refine ⟨rng', ?_⟩
  simp only [hillClimbStep, hin, if_true, neighborLoop, h]

theorem sysStep_config (fitness : Nat → Position K → K) (s : System K) (e : Event) :
    (sysStep fitness s e).g.functionType = s.g.functionType
      ∧ (sysStep fitness s e).g.bound = s.g.bound
      ∧ (sysStep fitness s e).g.rBound = s.g.rBound := by
  cases e with
  | work i =>
    simp only [sysStep]
    cases h : s.workers.get? i with
    | none => exact ⟨rfl, rfl, rfl⟩
    | some w => exact hillClimbStep_config fitness s.g w
  | sigint => exact interrupted_config s.g
  | sigusr1 => exact checkBest_config s.g

theorem sysStep_inert (fitness : Nat → Position K → K) (s : System K) (e : Event)
    (h0 : toInt s.g.rBound = 0) (i : Nat) (position : Position K) (rng : Rand K)
    (hw : s.workers.get? i = some (.inner position (fitness s.g.functionType position) rng))
    (hin : checkInBounds position (toInt (-s.g.bound)) (toInt s.g.bound) = true) :
    ∃ rng', (sysStep fitness s e).workers.get? i
      = some (.inner position (fitness s.g.functionType position) rng') := by
  cases e with
  | work j =>
    simp only [sysStep]
    by_cases hj : j = i
    · subst hj
      rw [hw]
      obtain ⟨rng', h⟩ := hillClimbStep_inert fitness s.g h0 position rng hin
      refine ⟨rng', ?_⟩
      simp only [h]
      rw [List.get?_eq_getElem?, List.getElem?_set_eq_of_lt]
      rw [List.get?_eq_getElem?] at hw
      exact (List.getElem?_eq_some.mp hw).1
    · cases hjw : s.workers.get? j with
      | none => exact ⟨rng, hw⟩
      | some w =>
        refine ⟨rng, ?_⟩
        simp only []
        rw [List.get?_eq_getElem?, List.getElem?_set_ne hj, ← List.get?_eq_getElem?]
        exact hw
  | sigint => exact ⟨rng, hw⟩
  | sigusr1 => exact ⟨rng, hw⟩

theorem sysRun_inert (fitness : Nat → Position K → K) (events : List Event) (s : System K)
    (h0 : toInt s.g.rBound = 0) (i : Nat) (position : Position K) (rng : Rand K)
    (hw : s.workers.get? i = some (.inner position (fitness s.g.functionType position) rng))
    (hin : checkInBounds position (toInt (-s.g.bound)) (toInt s.g.bound) = true) :
    ∃ rng', (sysRun fitness s events).workers.get? i
      = some (.inner position (fitness s.g.functionType position) rng') := by
  induction events generalizing s rng with
  | nil => exact ⟨rng, hw⟩
  | cons e events ih =>
    obtain ⟨rng1, h1⟩ := sysStep_inert fitness s e h0 i position rng hw hin
    obtain ⟨hf, hb, hr⟩ := sysStep_config fitness s e
    have := ih (sysStep fitness s e) (by rw [hr]; exact h0) rng1 (by rw [hf]; exact h1)
      (by rw [hb]; exact hin)
    rw [hf] at this
    exact this

end Inert

theorem sphere_apply_corner : fitnessEvaluation 5 ![5, 5] = 50 := by
  rw [sphere_apply]
  norm_num

theorem sphere_corner_sampled :
    hillClimbStep fitnessEvaluation (sphereGlobals : Globals ℝ) (.outer (fun _ : Nat => (1 : ℝ)))
      = (Action.sampled ![5, 5] 50, sphereGlobals,
          Worker.inner ![5, 5] 50 (fun _ : Nat => (1 : ℝ))) := by
  have hp : (getRandPosition (-5) 5 (fun _ : Nat => (1 : ℝ))).1 = ![5, 5] := by
    funext i
    fin_cases i <;> norm_num [getRandPosition]
  obtain ⟨hb, hnb, -, -⟩ := sphereGlobals_toInt
  simp only [hillClimbStep, hb, hnb]
  simp only [sphereGlobals, hp, sphere_apply_corner, if_true]
  rfl

theorem sphere_corner_in_bounds :
    checkInBounds (![5, 5] : Position ℝ) (toInt (-(sphereGlobals : Globals ℝ).bound))
      (toInt (sphereGlobals : Globals ℝ).bound) = true := by
  obtain ⟨hb, hnb, -, -⟩ := sphereGlobals_toInt
  rw [hb, hnb, checkInBounds_iff]
  intro i
  fin_cases i <;> norm_num

/-! ## The worker: claim C13 -/

/-- C13 (defect in the code).  Run `hillclimb 1 5` (Sphere) with one worker that
samples the corner `(5, 5)`, then deliver the interrupt.  With `continuing`
already false at the test of the inner loop, the worker still makes a whole pass
(neighbour loop and locked section), because that test is `checkInBounds` alone;
and after any number `n` of further steps it is still in the inner loop, never
at the `while (continuing)` test and never returned. -/
theorem worker_searches_after_cancellation (n : Nat) :
    (interrupted (sphereGlobals : Globals ℝ)).continuing = false
      ∧ (∀ rng : Rand ℝ,
          (hillClimbStep fitnessEvaluation (interrupted (sphereGlobals : Globals ℝ))
            (Worker.inner ![5, 5] 50 rng)).1 = Action.locked ![5, 5] 50)
      ∧ ∃ rng' : Rand ℝ,
          (sysRun fitnessEvaluation
              { g := sphereGlobals, workers := [Worker.outer (fun _ : Nat => (1 : ℝ))] }
              (Event.work 0 :: Event.sigint :: List.replicate n (Event.work 0))).workers.get? 0
            = some (Worker.inner ![5, 5] 50 rng') := by
  obtain ⟨-, -, hr, -⟩ := sphereGlobals_toInt
  have h0 : toInt (interrupted (sphereGlobals : Globals ℝ)).rBound = 0 := hr
  have hf : fitnessEvaluation (interrupted (sphereGlobals : Globals ℝ)).functionType ![5, 5]
      = 50 := sphere_apply_corner
  refine ⟨rfl, fun rng => ?_, ?_⟩
  · obtain ⟨rng', h⟩ := hillClimbStep_inert fitnessEvaluation
      (interrupted (sphereGlobals : Globals ℝ)) h0 ![5, 5] rng sphere_corner_in_bounds
    rw [hf] at h
    rw [h]
  · have hrun := sysRun_inert fitnessEvaluation (List.replicate n (Event.work 0))
      { g := interrupted (sphereGlobals : Globals ℝ),
        workers := [Worker.inner ![5, 5] 50 (fun _ : Nat => (1 : ℝ))] }
      h0 0 ![5, 5] (fun _ : Nat => (1 : ℝ)) (by rw [hf]; rfl) sphere_corner_in_bounds
    rw [hf] at hrun
    simp only [sysRun, List.foldl_cons, sysStep, List.get?_cons_zero, sphere_corner_sampled,
      List.set_cons_zero]
    exact hrun

/-! ## The worker: claim C19 -/

/-- C19.  For the function ids 3, 5 and 8 (bounds 5.12, 5.12 and 1, `rBound` one
tenth of the bound): every perturbation vector is zero whatever the draws; a
pass of the neighbour loop leaves the worker's pair `(position, best)`, where
`best` is the fitness of `position`, unchanged; every start position drawn with
quotients in `[0, 1]` passes the bounds check; hence a worker that samples its
start keeps that very pair and stays in the inner loop through any sequence of
events (steps of any worker and signals), the interrupt included. -/
theorem small_bound_worker_is_inert (g : Globals ℝ)
    (hk : (g.functionType = 3 ∧ g.bound = 5.12) ∨ (g.functionType = 5 ∧ g.bound = 5.12)
      ∨ (g.functionType = 8 ∧ g.bound = 1))
    (hrb : g.rBound = g.bound * 0.10) :
    (∀ (rng : Rand ℝ) (j : Fin DIMENSIONS),
        (getRandPosition (toInt (-g.rBound)) (toInt g.rBound) rng).1 j = 0)
      ∧ (∀ (position : Position ℝ) (rng : Rand ℝ),
          (neighborLoop (fitnessEvaluation g.functionType) g.rBound
              (position, fitnessEvaluation g.functionType position, rng)).1 = position
            ∧ (neighborLoop (fitnessEvaluation g.functionType) g.rBound
              (position, fitnessEvaluation g.functionType position, rng)).2.1
                = fitnessEvaluation g.functionType position)
      ∧ (∀ rng : Rand ℝ, (∀ n, 0 ≤ rng n ∧ rng n ≤ 1) →
          checkInBounds (getRandPosition (toInt (-g.bound)) (toInt g.bound) rng).1
            (toInt (-g.bound)) (toInt g.bound) = true)
      ∧ (∀ (workers : List (Worker ℝ)) (i : Nat) (rng : Rand ℝ) (events : List Event),
          g.continuing = true → workers.get? i = some (Worker.outer rng) →
          (∀ n, 0 ≤ rng n ∧ rng n ≤ 1) →
          ∃ rng' : Rand ℝ,
            (sysRun fitnessEvaluation { g := g, workers := workers }
                (Event.work i :: events)).workers.get? i
              = some (Worker.inner (getRandPosition (toInt (-g.bound)) (toInt g.bound) rng).1
                  (fitnessEvaluation g.functionType
                    (getRandPosition (toInt (-g.bound)) (toInt g.bound) rng).1) rng')) := by
  have hb0 : 0 ≤ g.bound := by
    rcases hk with h | h | h <;> rw [h.2] <;> norm_num
  have h0 : toInt g.rBound = 0 := by
    rw [toInt_of_nonneg (by rw [hrb]; positivity), Int.floor_eq_iff, hrb]
    rcases hk with h | h | h <;> rw [h.2] <;> norm_num
  have hn0 : toInt (-g.rBound) = 0 := by rw [toInt_neg, h0]; rfl
  have hstart : ∀ rng : Rand ℝ, (∀ n, 0 ≤ rng n ∧ rng n ≤ 1) →
      checkInBounds (getRandPosition (toInt (-g.bound)) (toInt g.bound) rng).1
        (toInt (-g.bound)) (toInt g.bound) = true := by
    intro rng hr
    rw [checkInBounds_iff]
    intro i
    exact getRandPosition_mem _ _ rng (toInt_mono (by linarith)) hr i
  refine ⟨fun rng j => ?_, fun position rng => ?_, hstart, ?_⟩
  · rw [h0, hn0, getRandPosition_zero]
  · obtain ⟨rng', h⟩ := neighbor_fold_inert (fitnessEvaluation g.functionType) g.rBound h0
      position (List.range NEIGHBORS) rng
    simp only [neighborLoop, h, and_self]
  · intro workers i rng events hc hw hr
    have hlen : i < workers.length := by
      rw [List.get?_eq_getElem?] at hw
      exact (List.getElem?_eq_some.mp hw).1
    have hstep : sysStep fitnessEvaluation { g := g, workers := workers } (Event.work i)
        = { g := g,
            workers := workers.set i
              (Worker.inner (getRandPosition (toInt (-g.bound)) (toInt g.bound) rng).1
                (fitnessEvaluation g.functionType
                  (getRandPosition (toInt (-g.bound)) (toInt g.bound) rng).1)
                (getRandPosition (toInt (-g.bound)) (toInt g.bound) rng).2) } := by
      simp only [sysStep, hw, hillClimbStep, hc, if_true]
    rw [sysRun, List.foldl_cons, hstep]
    exact sysRun_inert fitnessEvaluation events _ h0 i _ _
      (by rw [List.get?_eq_getElem?, List.getElem?_set_eq_of_lt _ hlen]) (hstart rng hr)

/-- Witness for C19: the globals of `hillclimb 1 5` (Sphere) and one worker
whose draws are all 1. -/
theorem small_bound_worker_is_inert_witness :
    ∃ rng' : Rand ℝ,
      (sysRun fitnessEvaluation
          { g := sphereGlobals, workers := [Worker.outer (fun _ : Nat => (1 : ℝ))] }
          (Event.work 0 :: [Event.work 0, Event.sigint, Event.work 0])).workers.get? 0
        = some (Worker.inner
            (getRandPosition (toInt (-(sphereGlobals : Globals ℝ).bound))
              (toInt (sphereGlobals : Globals ℝ).bound) (fun _ : Nat => (1 : ℝ))).1
            (fitnessEvaluation (sphereGlobals : Globals ℝ).functionType
              (getRandPosition (toInt (-(sphereGlobals : Globals ℝ).bound))
                (toInt (sphereGlobals : Globals ℝ).bound) (fun _ : Nat => (1 : ℝ))).1) rng') :=
  (small_bound_worker_is_inert sphereGlobals (Or.inr (Or.inl ⟨rfl, rfl⟩)) rfl).2.2.2
    [Worker.outer (fun _ : Nat => (1 : ℝ))] 0 (fun _ : Nat => (1 : ℝ))
    [Event.work 0, Event.sigint, Event.work 0] rfl rfl
    (fun _ => ⟨zero_le_one, le_refl _⟩)

/-! ## The neighbour loop: lemmas for claims C16, C17 -/

section NeighbourLoop

variable {K : Type} [LinearOrderedField K] [FloorRing K]

theorem neighbor_eq_candidate (fitness : Position K → K) (rBound : K)
    (st : Position K × K × Rand K) :
    neighbor fitness rBound st
      = if (candidate fitness rBound st).2 < st.2.1
        then ((candidate fitness rBound st).1, (candidate fitness rBound st).2,
          fun n => st.2.2 (n + DIMENSIONS))
        else (st.1, st.2.1, fun n => st.2.2 (n + DIMENSIONS)) := by
  simp only [neighbor, candidate, getRandPosition]

theorem neighbor_pair_cases (fitness : Position K → K) (rBound : K)
    (st : Position K × K × Rand K) :
    ((neighbor fitness rBound st).1 = st.1 ∧ (neighbor fitness rBound st).2.1 = st.2.1)
      ∨ (neighbor fitness rBound st).2.1 < st.2.1 := by
  rw [neighbor_eq_candidate]
  split_ifs with h
  · exact Or.inr h
  · exact Or.inl ⟨rfl, rfl⟩

theorem neighbor_iterate_cases (fitness : Position K → K) (rBound : K) (n : Nat)
    (st : Position K × K × Rand K) :
    (((neighbor fitness rBound)^[n] st).1 = st.1
        ∧ ((neighbor fitness rBound)^[n] st).2.1 = st.2.1)
      ∨ ((neighbor fitness rBound)^[n] st).2.1 < st.2.1 := by
  induction n generalizing st with
  | zero => exact Or.inl ⟨rfl, rfl⟩
  | succ n ih =>
    rw [Function.iterate_succ_apply]
    rcases ih (neighbor fitness rBound st) with ⟨h1, h2⟩ | h
    · rcases neighbor_pair_cases fitness rBound st with ⟨k1, k2⟩ | k
      · exact Or.inl ⟨h1.trans k1, h2.trans k2⟩
      · exact Or.inr (by rw [h2]; exact k)
    · rcases neighbor_pair_cases fitness rBound st with ⟨_, k2⟩ | k
      · exact Or.inr (by rw [← k2]; exact h)
      · exact Or.inr (lt_trans h k)

theorem neighbor_iterate_last (fitness : Position K → K) (rBound : K) (n : Nat)
    (st : Position K × K × Rand K) :
    (((neighbor fitness rBound)^[n] st).1, ((neighbor fitness rBound)^[n] st).2.1)
      = (((neighborTrace fitness rBound n st).filter (fun c => c.2)).getLast?.map
          (fun c => c.1)).getD (st.1, st.2.1) := by
  induction n generalizing st with
  | zero => rfl
  | succ n ih =>
    rw [Function.iterate_succ_apply, ih (neighbor fitness rBound st), neighborTrace,
      List.filter_cons]
    by_cases hacc : (candidate fitness rBound st).2 < st.2.1
    · have hn : ((neighbor fitness rBound st).1, (neighbor fitness rBound st).2.1)
          = candidate fitness rBound st := by
        rw [neighbor_eq_candidate, if_pos hacc]
      simp only [hacc, decide_True, if_true, List.getLast?_cons, Option.map_some',
        Option.getD_some, hn]
      cases hl : ((neighborTrace fitness rBound n (neighbor fitness rBound st)).filter
          (fun c => c.2)).getLast? with
      | none => rfl
      | some c => rfl
    · have hn : ((neighbor fitness rBound st).1, (neighbor fitness rBound st).2.1)
          = (st.1, st.2.1) := by
        rw [neighbor_eq_candidate, if_neg hacc]
      simp only [hacc, decide_False, Bool.false_eq_true, if_false, hn]

theorem neighborLoop_eq_iterate (fitness : Position K → K) (rBound : K)
    (st : Position K × K × Rand K) :
    neighborLoop fitness rBound st = (neighbor fitness rBound)^[NEIGHBORS] st := by
  rw [neighborLoop, List.foldl_const, List.length_range]

end NeighbourLoop

/-! ## The neighbour loop: claim C17 -/

section ClaimC17

variable {K : Type} [LinearOrderedField K] [FloorRing K]

/-- C17.  One pass of the neighbour loop evaluates all `NEIGHBORS` candidates
against a running baseline.  The resulting `(position, best)` is the last
candidate, in iteration order, for which the test `tempBest < best` held against
the running `best` at the moment it was evaluated; if the test held for no
candidate (ties included) the pair is unchanged.  Consequently `best` after the
pass is `≤` `best` before it, and `position` changes only if `best` strictly
decreased. -/
theorem neighborLoop_adopts_last_improvement (fitness : Position K → K) (rBound : K)
    (st : Position K × K × Rand K) :
    (neighborTrace fitness rBound NEIGHBORS st).length = NEIGHBORS
      ∧ ((neighborLoop fitness rBound st).1, (neighborLoop fitness rBound st).2.1)
          = (((neighborTrace fitness rBound NEIGHBORS st).filter (fun c => c.2)).getLast?.map
              (fun c => c.1)).getD (st.1, st.2.1)
      ∧ ((∀ c ∈ neighborTrace fitness rBound NEIGHBORS st, c.2 = false) →
          (neighborLoop fitness rBound st).1 = st.1
            ∧ (neighborLoop fitness rBound st).2.1 = st.2.1)
      ∧ (neighborLoop fitness rBound st).2.1 ≤ st.2.1
      ∧ ((neighborLoop fitness rBound st).1 ≠ st.1 →
          (neighborLoop fitness rBound st).2.1 < st.2.1) := by
  have hlast := neighbor_iterate_last fitness rBound NEIGHBORS st
  have hcases := neighbor_iterate_cases fitness rBound NEIGHBORS st
  rw [neighborLoop_eq_iterate]
  refine ⟨rfl, hlast, fun hnone => ?_, ?_, fun hne => ?_⟩
  · have hf : (neighborTrace fitness rBound NEIGHBORS st).filter (fun c => c.2) = [] := by
      rw [List.filter_eq_nil_iff]
      intro c hc
      rw [hnone c hc]
      exact Bool.false_ne_true
    rw [hf] at hlast
    exact Prod.mk.inj hlast
  · rcases hcases with ⟨_, h2⟩ | h
    · exact le_of_eq h2
    · exact le_of_lt h
  · rcases hcases with ⟨h1, _⟩ | h
    · exact absurd h1 hne
    · exact h

end ClaimC17

/-! ## The neighbour loop: claim C16 -/

section ClaimC16

variable {K : Type} [LinearOrderedField K] [FloorRing K]

theorem neighbor_fold_running (fitness : Position K → K) (rBound : K)
    (pos : Position K) (fit : K) (rng : Rand K) (n : Nat) :
    (List.range n).foldl (fun st _ => neighbor fitness rBound st) (pos, fit, rng)
      = ((runningImprovementSpec fitness pos fit
            ((List.range n).map
              (fun k => (getRandPosition (toInt (-rBound)) (toInt rBound)
                (fun m => rng (m + k * DIMENSIONS))).1))).1,
          (runningImprovementSpec fitness pos fit
            ((List.range n).map
              (fun k => (getRandPosition (toInt (-rBound)) (toInt rBound)
                (fun m => rng (m + k * DIMENSIONS))).1))).2,
          fun m => rng (m + n * DIMENSIONS)) := by
  induction n with
  | zero =>
    simp only [runningImprovementSpec, List.range_zero, List.foldl_nil, List.map_nil,
      Nat.zero_mul, Nat.add_zero]
  | succ n ih =>
    rw [List.range_succ, List.foldl_append, ih]
    simp only [runningImprovementSpec, List.map_append, List.foldl_append, List.foldl_cons,
      List.foldl_nil, List.map_cons, List.map_nil, neighbor]
    have hshift : (getRandPosition (toInt (-rBound)) (toInt rBound)
        (fun m => rng (m + n * DIMENSIONS))).2 = fun m => rng (m + (n + 1) * DIMENSIONS) := by
      funext m
      simp only [getRandPosition]
      congr 1
      ring
    rw [hshift]
    split_ifs <;> rfl

/-- C16 (fails as stated).  On Sum Squares (`rBound` 1) take the current pair
`((5, 5), 75)` and the draws 0, 0, 0, 0, 1, 1, 1, 1, i.e. the perturbation vectors
`(-1, -1), (-1, -1), (1, 1), (1, 1)`.  First improvement from the start position
gives `((4, 4), 48)`; the code forms the second candidate from the already
adopted `(4, 4)` and ends the pass at `((3, 3), 27)`. -/
theorem neighborLoop_not_first_improvement :
    perturbations (sumSquaresGlobals : Globals ℝ).rBound (fallingDraws : Rand ℝ)
        = [![-1, -1], ![-1, -1], ![1, 1], ![1, 1]]
      ∧ fitnessEvaluation 7 ![5, 5] = 75
      ∧ firstImprovementSpec (fitnessEvaluation 7) ![5, 5] 75
          (perturbations (sumSquaresGlobals : Globals ℝ).rBound (fallingDraws : Rand ℝ))
          = (![4, 4], 48)
      ∧ (neighborLoop (fitnessEvaluation 7) (sumSquaresGlobals : Globals ℝ).rBound
          (![5, 5], 75, fallingDraws)).1 = ![3, 3]
      ∧ (neighborLoop (fitnessEvaluation 7) (sumSquaresGlobals : Globals ℝ).rBound
          (![5, 5], 75, fallingDraws)).2.1 = 27
      ∧ ((neighborLoop (fitnessEvaluation 7) (sumSquaresGlobals : Globals ℝ).rBound
            (![5, 5], 75, fallingDraws)).1,
          (neighborLoop (fitnessEvaluation 7) (sumSquaresGlobals : Globals ℝ).rBound
            (![5, 5], 75, fallingDraws)).2.1)
          ≠ firstImprovementSpec (fitnessEvaluation 7) ![5, 5] 75
              (perturbations (sumSquaresGlobals : Globals ℝ).rBound (fallingDraws : Rand ℝ)) := by
  obtain ⟨-, -, hr, hnr⟩ := sumSquaresGlobals_toInt
  have hrange : List.range NEIGHBORS = [0, 1, 2, 3] := by decide
  have hper : perturbations (sumSquaresGlobals : Globals ℝ).rBound (fallingDraws : Rand ℝ)
      = [![-1, -1], ![-1, -1], ![1, 1], ![1, 1]] := by
    simp only [perturbations, hr, hnr, hrange, List.map_cons, List.map_nil]
    have e0 : (getRandPosition (-1) 1 (fun n => (fallingDraws : Rand ℝ) (n + 0 * DIMENSIONS))).1
        = ![-1, -1] := by
      funext j; fin_cases j <;> norm_num [getRandPosition, fallingDraws]
    have e1 : (getRandPosition (-1) 1 (fun n => (fallingDraws : Rand ℝ) (n + 1 * DIMENSIONS))).1
        = ![-1, -1] := by
      funext j; fin_cases j <;> norm_num [getRandPosition, fallingDraws]
    have e2 : (getRandPosition (-1) 1 (fun n => (fallingDraws : Rand ℝ) (n + 2 * DIMENSIONS))).1
        = ![1, 1] := by
      funext j; fin_cases j <;> norm_num [getRandPosition, fallingDraws]
    have e3 : (getRandPosition (-1) 1 (fun n => (fallingDraws : Rand ℝ) (n + 3 * DIMENSIONS))).1
        = ![1, 1] := by
      funext j; fin_cases j <;> norm_num [getRandPosition, fallingDraws]
    rw [e0, e1, e2, e3]
  have a1 : (fun j => (![-1, -1] : Position ℝ) j + (![5, 5] : Position ℝ) j) = ![4, 4] := by
    funext j; fin_cases j <;> norm_num
  have a2 : (fun j => (![-1, -1] : Position ℝ) j + (![4, 4] : Position ℝ) j) = ![3, 3] := by
    funext j; fin_cases j <;> norm_num
  have a3 : (fun j => (![1, 1] : Position ℝ) j + (![3, 3] : Position ℝ) j) = ![4, 4] := by
    funext j; fin_cases j <;> norm_num
  have a4 : (fun j => (![1, 1] : Position ℝ) j + (![5, 5] : Position ℝ) j) = ![6, 6] := by
    funext j; fin_cases j <;> norm_num
  have f5 : fitnessEvaluation 7 ![5, 5] = 75 := by rw [sumSquares_apply]; norm_num
  have f4 : fitnessEvaluation 7 ![4, 4] = 48 := by rw [sumSquares_apply]; norm_num
  have f3 : fitnessEvaluation 7 ![3, 3] = 27 := by rw [sumSquares_apply]; norm_num
  have hspec : firstImprovementSpec (fitnessEvaluation 7) ![5, 5] 75
      (perturbations (sumSquaresGlobals : Globals ℝ).rBound (fallingDraws : Rand ℝ))
      = (![4, 4], 48) := by
    rw [hper]
    simp only [firstImprovementSpec, List.map_cons, List.map_nil, a1, a4, List.find?_cons, f4]
    norm_num [f4]
  have hloop : neighborLoop (fitnessEvaluation 7) (sumSquaresGlobals : Globals ℝ).rBound
      (![5, 5], 75, fallingDraws)
      = (![3, 3], 27, fun m => (fallingDraws : Rand ℝ) (m + NEIGHBORS * DIMENSIONS)) := by
    rw [neighborLoop, neighbor_fold_running]
    have hper' := hper
    simp only [perturbations] at hper'
    rw [hper']
    simp only [runningImprovementSpec, List.foldl_cons, List.foldl_nil, a1, f4]
    norm_num [a2, f3, a3, f4]
  refine ⟨hper, f5, hspec, ?_, ?_, ?_⟩
  · rw [hloop]
  · rw [hloop]
  · rw [hloop, hspec]
    intro h
    have h2 := (Prod.mk.inj h).2
    norm_num at h2

/-- C16 (amended).  One pass of the neighbour loop, given the current
`(pos, fit)` at its start and the four perturbation vectors `d1..d4`: candidate
`k` is the running current position plus `dk` (the position as updated by the
earlier candidates of the same pass, not the one held at the start), and it
becomes the running current when its fitness is strictly lower than the running
fitness; the new current is the running current after the fourth candidate, and
it is `(pos, fit)` unchanged if no candidate was strictly lower. -/
theorem neighborLoop_running_improvement (fitness : Position K → K) (rBound : K)
    (pos : Position K) (fit : K) (rng : Rand K) :
    (perturbations rBound rng).length = 4
      ∧ ((neighborLoop fitness rBound (pos, fit, rng)).1,
          (neighborLoop fitness rBound (pos, fit, rng)).2.1)
          = runningImprovementSpec fitness pos fit (perturbations rBound rng)
      ∧ ((∀ c ∈ neighborTrace fitness rBound NEIGHBORS (pos, fit, rng), c.2 = false) →
          runningImprovementSpec fitness pos fit (perturbations rBound rng) = (pos, fit)) := by
  have hrun : ((neighborLoop fitness rBound (pos, fit, rng)).1,
      (neighborLoop fitness rBound (pos, fit, rng)).2.1)
      = runningImprovementSpec fitness pos fit (perturbations rBound rng) := by
    rw [neighborLoop, neighbor_fold_running]
    rfl
  refine ⟨rfl, hrun, fun hnone => ?_⟩
  rw [← hrun, neighborLoop_eq_iterate, neighbor_iterate_last]
  have hf : (neighborTrace fitness rBound NEIGHBORS (pos, fit, rng)).filter (fun c => c.2)
      = [] := by
    rw [List.filter_eq_nil_iff]
    intro c hc
    rw [hnone c hc]
    exact Bool.false_ne_true
  rw [hf]
  rfl

end ClaimC16

/-! ## Self-consistency of the best record: claim C18 -/

theorem publish_record_consistent {K : Type} [LinearOrderedField K] (fitness : Position K → K) (position : Position K) (best : K)
    (g : Globals K) (hpair : best = fitness position)
    (hrec : g.out.any Output.isNewMinimum = true → g.bestResult = fitness g.bestPosition) :
    (publish position best g).out.any Output.isNewMinimum = true →
      (publish position best g).bestResult = fitness (publish position best g).bestPosition := by
  unfold publish
  split_ifs with hlt
  · intro _
    exact hpair
  · exact hrec

section Consistency

variable {K : Type} [LinearOrderedField K] [FloorRing K]

theorem neighbor_consistent (fitness : Position K → K) (rBound : K)
    (st : Position K × K × Rand K) (h : st.2.1 = fitness st.1) :
    (neighbor fitness rBound st).2.1 = fitness (neighbor fitness rBound st).1 := by
  rw [neighbor_eq_candidate]
  split_ifs
  · rfl
  · exact h

theorem neighborLoop_consistent (fitness : Position K → K) (rBound : K)
    (st : Position K × K × Rand K) (h : st.2.1 = fitness st.1) :
    (neighborLoop fitness rBound st).2.1 = fitness (neighborLoop fitness rBound st).1 := by
  rw [neighborLoop_eq_iterate]
  generalize NEIGHBORS = n
  induction n generalizing st with
  | zero => exact h
  | succ n ih =>
    rw [Function.iterate_succ_apply]
    exact ih _ (neighbor_consistent fitness rBound st h)

theorem hillClimbStep_consistent (fitness : Nat → Position K → K) (g : Globals K)
    (w : Worker K) (hw : w.consistent (fitness g.functionType))
    (hrec : g.out.any Output.isNewMinimum = true →
      g.bestResult = fitness g.functionType g.bestPosition) :
    (hillClimbStep fitness g w).2.2.consistent (fitness g.functionType)
      ∧ ((hillClimbStep fitness g w).2.1.out.any Output.isNewMinimum = true →
          (hillClimbStep fitness g w).2.1.bestResult
            = fitness g.functionType (hillClimbStep fitness g w).2.1.bestPosition) := by
  cases w with
  | outer rng =>
    simp only [hillClimbStep]
    split_ifs
    · exact ⟨rfl, hrec⟩
    · exact ⟨trivial, hrec⟩
  | inner position best rng =>
    have hc := neighborLoop_consistent (fitness g.functionType) g.rBound (position, best, rng) hw
    simp only [hillClimbStep]
    split_ifs
    · exact ⟨hc, publish_record_consistent (fitness g.functionType) _ _ g hc hrec⟩
    · exact ⟨trivial, hrec⟩
  | returned => exact ⟨trivial, hrec⟩

theorem sysStep_consistent (fitness : Nat → Position K → K) (s : System K) (e : Event)
    (hw : ∀ w ∈ s.workers, w.consistent (fitness s.g.functionType))
    (hrec : s.g.out.any Output.isNewMinimum = true →
      s.g.bestResult = fitness s.g.functionType s.g.bestPosition) :
    (∀ w ∈ (sysStep fitness s e).workers, w.consistent (fitness s.g.functionType))
      ∧ ((sysStep fitness s e).g.out.any Output.isNewMinimum = true →
          (sysStep fitness s e).g.bestResult
            = fitness s.g.functionType (sysStep fitness s e).g.bestPosition) := by
  cases e with
  | work i =>
    simp only [sysStep]
    cases hi : s.workers.get? i with
    | none => exact ⟨hw, hrec⟩
    | some w =>
      have hmem : w ∈ s.workers := List.get?_mem hi
      obtain ⟨h1, h2⟩ := hillClimbStep_consistent fitness s.g w (hw w hmem) hrec
      refine ⟨fun w' hw' => ?_, h2⟩
      rcases List.mem_or_eq_of_mem_set hw' with h | h
      · exact hw w' h
      · rw [h]; exact h1
  | sigint => exact ⟨hw, hrec⟩
  | sigusr1 =>
    refine ⟨hw, ?_⟩
    simp only [sysStep, checkBest, List.any_append, List.any_cons, List.any_nil,
      Output.isNewMinimum, Bool.or_false]
    exact hrec

theorem sysRun_consistent (fitness : Nat → Position K → K) (events : List Event) (s : System K)
    (hw : ∀ w ∈ s.workers, w.consistent (fitness s.g.functionType))
    (hrec : s.g.out.any Output.isNewMinimum = true →
      s.g.bestResult = fitness s.g.functionType s.g.bestPosition) :
    (∀ w ∈ (sysRun fitness s events).workers, w.consistent (fitness s.g.functionType))
      ∧ ((sysRun fitness s events).g.out.any Output.isNewMinimum = true →
          (sysRun fitness s events).g.bestResult
            = fitness s.g.functionType (sysRun fitness s events).g.bestPosition) := by
  induction events generalizing s with
  | nil => exact ⟨hw, hrec⟩
  | cons e events ih =>
    obtain ⟨h1, h2⟩ := sysStep_consistent fitness s e hw hrec
    have hf := (sysStep_config fitness s e).1
    have := ih (sysStep fitness s e) (by rw [hf]; exact h1) (by rw [hf]; exact h2)
    rw [hf] at this
    exact this

end Consistency

/-- C18.  The worker's local pair satisfies `best = fitnessEvaluation(position)`
after Restart (the sample at the top of the outer loop) and after every candidate
of every pass of the neighbour loop.  Hence, in a run of the program that starts
with every worker at the top of its outer loop and no "New minimum" written yet,
after any finite sequence of events every worker's pair is consistent, and as soon
as one publication has succeeded (a "New minimum" report is in the output) the
stored record satisfies `bestResult = fitnessEvaluation(bestPosition)`. -/
theorem best_record_self_consistent (g : Globals ℝ) (workers : List (Worker ℝ))
    (events : List Event)
    (hstart : ∀ w ∈ workers, ∃ rng, w = Worker.outer rng)
    (hout : g.out.any Output.isNewMinimum = false) :
    (∀ rng : Rand ℝ, g.continuing = true →
        (hillClimbStep fitnessEvaluation g (Worker.outer rng)).2.2.consistent
          (fitnessEvaluation g.functionType))
      ∧ (∀ (st : Position ℝ × ℝ × Rand ℝ), st.2.1 = fitnessEvaluation g.functionType st.1 →
          (neighbor (fitnessEvaluation g.functionType) g.rBound st).2.1
            = fitnessEvaluation g.functionType
                (neighbor (fitnessEvaluation g.functionType) g.rBound st).1)
      ∧ (∀ w ∈ (sysRun fitnessEvaluation { g := g, workers := workers } events).workers,
          w.consistent (fitnessEvaluation g.functionType))
      ∧ ((sysRun fitnessEvaluation { g := g, workers := workers } events).g.out.any
            Output.isNewMinimum = true →
          (sysRun fitnessEvaluation { g := g, workers := workers } events).g.bestResult
            = fitnessEvaluation
                (sysRun fitnessEvaluation { g := g, workers := workers } events).g.functionType
                (sysRun fitnessEvaluation { g := g, workers := workers } events).g.bestPosition) := by
  have hw : ∀ w ∈ workers, w.consistent (fitnessEvaluation g.functionType) := by
    intro w hmem
    obtain ⟨rng, h⟩ := hstart w hmem
    rw [h]
    trivial
  have hrec : g.out.any Output.isNewMinimum = true →
      g.bestResult = fitnessEvaluation g.functionType g.bestPosition := by
    intro h
    rw [hout] at h
    exact absurd h Bool.false_ne_true
  obtain ⟨h1, h2⟩ := sysRun_consistent fitnessEvaluation events { g := g, workers := workers }
    hw hrec
  have hft : (sysRun fitnessEvaluation { g := g, workers := workers } events).g.functionType
      = g.functionType := by
    have hgen : ∀ (evs : List Event) (s : System ℝ),
        (sysRun fitnessEvaluation s evs).g.functionType = s.g.functionType := by
      intro evs
      induction evs with
      | nil => intro s; rfl
      | cons e evs ih =>
        intro s
        rw [sysRun, List.foldl_cons]
        exact (ih (sysStep fitnessEvaluation s e)).trans (sysStep_config fitnessEvaluation s e).1
    exact hgen events _
  refine ⟨fun rng hc => ?_, fun st hst => neighbor_consistent _ _ st hst, h1, ?_⟩
  · simp only [hillClimbStep, hc, if_true]
    rfl
  · rw [hft]
    exact h2

/-- Witness for C18: the run of `hillclimb 1 7` from the corner `(10, 10)`, in
which the publication of `((11, 9), 283)` succeeds. -/
theorem best_record_self_consistent_witness :
    (sysRun fitnessEvaluation
        { g := (sumSquaresGlobals : Globals ℝ), workers := [Worker.outer edgeDraws] }
        [Event.work 0, Event.work 0]).g.bestPosition = ![11, 9]
      ∧ (sysRun fitnessEvaluation
          { g := (sumSquaresGlobals : Globals ℝ), workers := [Worker.outer edgeDraws] }
          [Event.work 0, Event.work 0]).g.bestResult
        = fitnessEvaluation
            (sysRun fitnessEvaluation
              { g := (sumSquaresGlobals : Globals ℝ), workers := [Worker.outer edgeDraws] }
              [Event.work 0, Event.work 0]).g.functionType
            (sysRun fitnessEvaluation
              { g := (sumSquaresGlobals : Globals ℝ), workers := [Worker.outer edgeDraws] }
              [Event.work 0, Event.work 0]).g.bestPosition := by
  have hlt : (283 : ℝ) < (sumSquaresGlobals : Globals ℝ).bestResult := by
    norm_num [sumSquaresGlobals, startGlobals, DBL_MAX]
  have hrun : (sysRun fitnessEvaluation
      { g := (sumSquaresGlobals : Globals ℝ), workers := [Worker.outer edgeDraws] }
      [Event.work 0, Event.work 0]).g = publish ![11, 9] 283 sumSquaresGlobals := by
    simp only [sysRun, List.foldl_cons, List.foldl_nil, sysStep, List.get?_cons_zero,
      corner_sampled, List.set_cons_zero, corner_locked]
  refine ⟨?_, ?_⟩
  · rw [hrun]
    simp only [publish, hlt, if_true]
  · apply (best_record_self_consistent sumSquaresGlobals [Worker.outer edgeDraws]
      [Event.work 0, Event.work 0] ?_ ?_).2.2.2
    · rw [hrun]
      simp [publish, hlt, printBest, Output.isNewMinimum]
    · intro w hw
      exact ⟨edgeDraws, List.mem_singleton.mp hw⟩
    · rfl

/-! ## The locked section statement by statement: lemmas for claim C15 -/

section Interleaving

variable {K : Type} [LinearOrderedField K]

theorem Shared.Inv.exclusive {Q : Position K → K → Prop} {s : Shared K} (h : s.Inv Q)
    {i j : Nat} (hi : (s.climbers i).pc.inside = true) (hj : (s.climbers j).pc.inside = true) :
    i = j := by
  have h1 := h.1 i hi
  have h2 := h.1 j hj
  rw [h1] at h2
  exact Option.some.inj h2

theorem start_inv (Q : Position K → K → Prop) (g : Globals K)
    (hout : ∀ p v, Output.newMinimum (p, v) ∈ g.out → Q p v) : (Shared.start g).Inv Q := by
  refine ⟨?_, ?_, hout, ?_, ?_, ?_⟩ <;> intro i h <;> simp [Shared.start, SectionPc.inside] at h

theorem arrive_inv (Q : Position K → K → Prop) (s : Shared K) (i : Nat) (position : Position K)
    (best : K) (hQ : Q position best) (h : s.Inv Q) :
    (access s (.arrive i position best)).Inv Q := by
  obtain ⟨h1, h2, h3, h4, h5, h6⟩ := h
  simp only [access]
  split_ifs with haway
  swap
  · exact ⟨h1, h2, h3, h4, h5, h6⟩
  refine ⟨fun j hj => ?_, fun j hj => ?_, h3, fun j hj => ?_, fun j hj => ?_, fun j hj => ?_⟩
  all_goals
    by_cases hji : j = i
    · subst hji
      simp only [Function.update_same] at hj ⊢
      first
        | exact hQ
        | exact absurd hj (by simp [SectionPc.inside])
    · simp only [Function.update_noteq hji] at hj ⊢
      first
        | exact h1 j hj
        | exact h2 j hj
        | exact h4 j hj
        | exact h5 j hj
        | exact h6 j hj

theorem read_inv (Q : Position K → K → Prop) (s : Shared K) (h : s.Inv Q) :
    (access s .status).Inv Q ∧ (access s .report).Inv Q := by
  obtain ⟨h1, h2, h3, h4, h5, h6⟩ := h
  constructor
  · refine ⟨h1, h2, fun p v hm => ?_, h4, h5, h6⟩
    simp only [access, checkBest, List.mem_append, List.mem_singleton] at hm
    rcases hm with hm | hm
    · exact h3 p v hm
    · cases hm
  · refine ⟨h1, h2, fun p v hm => ?_, h4, h5, h6⟩
    simp only [access, finalReport, List.mem_append, List.mem_singleton] at hm
    rcases hm with hm | hm
    · exact h3 p v hm
    · cases hm

theorem step_inv (Q : Position K → K → Prop) (s : Shared K) (i : Nat) (h : s.Inv Q) :
    (access s (.step i)).Inv Q := by
  have hex : ∀ j, (s.climbers i).pc.inside = true → (s.climbers j).pc.inside = true → j = i :=
    fun j hi hj => h.exclusive hj hi
  obtain ⟨h1, h2, h3, h4, h5, h6⟩ := h
  simp only [access]
  cases hpc : (s.climbers i).pc with
  | away =>
    have hsame : sectionStep i (s.climbers i) s.g s.updateLock
        = (s.climbers i, s.g, s.updateLock) := by
      simp only [sectionStep, hpc]
    rw [hsame, Function.update_eq_self]
    exact ⟨h1, h2, h3, h4, h5, h6⟩
  | atLock =>
    by_cases hfree : s.updateLock = none
    · have hstep : sectionStep i (s.climbers i) s.g s.updateLock
          = ({ s.climbers i with pc := .atTest }, s.g, some i) := by
        simp only [sectionStep, hpc, hfree, if_true]
      rw [hstep]
      have hnone : ∀ j, (s.climbers j).pc.inside = true → False := by
        intro j hj
        have := h1 j hj
        rw [hfree] at this
        cases this
      refine ⟨fun j hj => ?_, fun j hj => ?_, h3, fun j hj => ?_, fun j hj => ?_, fun j hj => ?_⟩
      all_goals
        by_cases hji : j = i
        · subst hji
          (simp only [Function.update_same] at hj ⊢) <;> first
            | rfl
            | exact h2 j (by rw [hpc]; decide)
            | cases hj
        · simp only [Function.update_noteq hji] at hj ⊢
          first
            | exact (hnone j hj).elim
            | exact h2 j hj
            | exact (hnone j (by rw [hj]; rfl)).elim
    · have hstep : sectionStep i (s.climbers i) s.g s.updateLock
          = (s.climbers i, s.g, s.updateLock) := by
        simp only [sectionStep, hpc, hfree, if_false]
      rw [hstep, Function.update_eq_self]
      exact ⟨h1, h2, h3, h4, h5, h6⟩
  | atTest =>
    have hin : (s.climbers i).pc.inside = true := by rw [hpc]; rfl
    have hlock := h1 i hin
    have hQi := h2 i (by rw [hpc]; decide)
    by_cases hlt : (s.climbers i).best < s.g.bestResult
    · have hstep : sectionStep i (s.climbers i) s.g s.updateLock
          = ({ s.climbers i with pc := .atWritePosition }, s.g, s.updateLock) := by
        simp only [sectionStep, hpc, hlt, if_true]
      rw [hstep]
      refine ⟨fun j hj => ?_, fun j hj => ?_, h3, fun j hj => ?_, fun j hj => ?_, fun j hj => ?_⟩
      all_goals
        by_cases hji : j = i
        · subst hji
          simp only [Function.update_same] at hj ⊢
          first
            | exact hlock
            | exact hQi
            | cases hj
        · simp only [Function.update_noteq hji] at hj ⊢
          first
            | exact h1 j hj
            | exact h2 j hj
            | exact h4 j hj
            | exact h5 j hj
            | exact h6 j hj
    · have hstep : sectionStep i (s.climbers i) s.g s.updateLock
          = ({ s.climbers i with pc := .atUnlock }, s.g, s.updateLock) := by
        simp only [sectionStep, hpc, hlt, if_false]
      rw [hstep]
      refine ⟨fun j hj => ?_, fun j hj => ?_, h3, fun j hj => ?_, fun j hj => ?_, fun j hj => ?_⟩
      all_goals
        by_cases hji : j = i
        · subst hji
          simp only [Function.update_same] at hj ⊢
          first
            | exact hlock
            | exact hQi
            | exact not_lt.mp hlt
            | cases hj
        · simp only [Function.update_noteq hji] at hj ⊢
          first
            | exact h1 j hj
            | exact h2 j hj
            | exact h4 j hj
            | exact h5 j hj
            | exact h6 j hj
  | atWritePosition =>
    have hin : (s.climbers i).pc.inside = true := by rw [hpc]; rfl
    have hlock := h1 i hin
    have hQi := h2 i (by rw [hpc]; decide)
    have hstep : sectionStep i (s.climbers i) s.g s.updateLock
        = ({ s.climbers i with pc := .atWriteResult },
            { s.g with bestPosition := (s.climbers i).position }, s.updateLock) := by
      simp only [sectionStep, hpc]
    rw [hstep]
    refine ⟨fun j hj => ?_, fun j hj => ?_, h3, fun j hj => ?_, fun j hj => ?_, fun j hj => ?_⟩
    all_goals
      by_cases hji : j = i
      · subst hji
        (simp only [Function.update_same] at hj ⊢) <;> first
          | exact hlock
          | exact hQi
          | cases hj
      · simp only [Function.update_noteq hji] at hj ⊢
        first
          | exact h1 j hj
          | exact h2 j hj
          | exact absurd (hex j hin (by rw [hj]; rfl)) hji
  | atWriteResult =>
    have hin : (s.climbers i).pc.inside = true := by rw [hpc]; rfl
    have hlock := h1 i hin
    have hQi := h2 i (by rw [hpc]; decide)
    have hpos := h4 i hpc
    have hstep : sectionStep i (s.climbers i) s.g s.updateLock
        = ({ s.climbers i with pc := .atPrint },
            { s.g with bestResult := (s.climbers i).best }, s.updateLock) := by
      simp only [sectionStep, hpc]
    rw [hstep]
    refine ⟨fun j hj => ?_, fun j hj => ?_, h3, fun j hj => ?_, fun j hj => ?_, fun j hj => ?_⟩
    all_goals
      by_cases hji : j = i
      · subst hji
        simp only [Function.update_same] at hj ⊢
        first
          | exact hlock
          | exact hQi
          | exact ⟨hpos, rfl⟩
          | exact ⟨hpos, trivial⟩
          | cases hj
      · simp only [Function.update_noteq hji] at hj ⊢
        first
          | exact h1 j hj
          | exact h2 j hj
          | exact absurd (hex j hin (by rw [hj]; rfl)) hji
  | atPrint =>
    have hin : (s.climbers i).pc.inside = true := by rw [hpc]; rfl
    have hlock := h1 i hin
    have hQi := h2 i (by rw [hpc]; decide)
    obtain ⟨hpos, hres⟩ := h5 i hpc
    have hstep : sectionStep i (s.climbers i) s.g s.updateLock
        = ({ s.climbers i with pc := .atUnlock },
            { s.g with out := s.g.out ++ [Output.newMinimum (printBest s.g)] },
            s.updateLock) := by
      simp only [sectionStep, hpc]
    rw [hstep]
    refine ⟨fun j hj => ?_, fun j hj => ?_, fun p v hm => ?_, fun j hj => ?_, fun j hj => ?_,
      fun j hj => ?_⟩
    · by_cases hji : j = i
      · subst hji; exact hlock
      · simp only [Function.update_noteq hji] at hj
        exact h1 j hj
    · by_cases hji : j = i
      · subst hji
        simp only [Function.update_same]
        exact hQi
      · simp only [Function.update_noteq hji] at hj ⊢
        exact h2 j hj
    · simp only [List.mem_append, List.mem_singleton] at hm
      rcases hm with hm | hm
      · exact h3 p v hm
      · simp only [printBest, Output.newMinimum.injEq, Prod.mk.injEq] at hm
        rw [hm.1, hm.2, hpos, hres]
        exact hQi
    · by_cases hji : j = i
      · subst hji
        simp only [Function.update_same] at hj
        cases hj
      · simp only [Function.update_noteq hji] at hj
        exact absurd (hex j hin (by rw [hj]; rfl)) hji
    · by_cases hji : j = i
      · subst hji
        simp only [Function.update_same] at hj
        cases hj
      · simp only [Function.update_noteq hji] at hj
        exact absurd (hex j hin (by rw [hj]; rfl)) hji
    · by_cases hji : j = i
      · subst hji
        simp only [Function.update_same]
        exact le_of_eq hres
      · simp only [Function.update_noteq hji] at hj
        exact absurd (hex j hin (by rw [hj]; rfl)) hji
  | atUnlock =>
    have hin : (s.climbers i).pc.inside = true := by rw [hpc]; rfl
    have hstep : sectionStep i (s.climbers i) s.g s.updateLock
        = ({ s.climbers i with pc := .away }, s.g, none) := by
      simp only [sectionStep, hpc]
    rw [hstep]
    refine ⟨fun j hj => ?_, fun j hj => ?_, h3, fun j hj => ?_, fun j hj => ?_, fun j hj => ?_⟩
    all_goals
      by_cases hji : j = i
      · subst hji
        simp only [Function.update_same] at hj ⊢
        first
          | cases hj
          | exact absurd rfl hj
      · simp only [Function.update_noteq hji] at hj ⊢
        first
          | exact h2 j hj
          | exact absurd (hex j hin hj) hji
          | exact absurd (hex j hin (by rw [hj]; rfl)) hji

theorem access_inv (Q : Position K → K → Prop) (s : Shared K) (a : Access K)
    (hQ : ∀ i position best, a = .arrive i position best → Q position best) (h : s.Inv Q) :
    (access s a).Inv Q := by
  cases a with
  | arrive i position best => exact arrive_inv Q s i position best (hQ i position best rfl) h
  | step i => exact step_inv Q s i h
  | status => exact (read_inv Q s h).1
  | report => exact (read_inv Q s h).2

theorem run_inv (Q : Position K → K → Prop) (accesses : List (Access K)) (s : Shared K)
    (hQ : ∀ i position best, Access.arrive i position best ∈ accesses → Q position best)
    (h : s.Inv Q) : (accesses.foldl access s).Inv Q := by
  induction accesses generalizing s with
  | nil => exact h
  | cons a accesses ih =>
    rw [List.foldl_cons]
    refine ih (access s a) (fun i p v hm => hQ i p v (List.mem_cons_of_mem _ hm)) ?_
    exact access_inv Q s a (fun i p v ha => hQ i p v (by rw [ha]; exact List.mem_cons_self _ _)) h

end Interleaving

/-! ## Mutual exclusion and readers: claim C15 -/

section ClaimC15

variable {K : Type} [LinearOrderedField K]

theorem section_alone (g : Globals K) (position : Position K) (best : K) :
    (([Access.arrive 0 position best] ++ List.replicate 6 (Access.step 0)).foldl access
        (Shared.start g)).g = publish position best g
      ∧ (([Access.arrive 0 position best] ++ List.replicate 6 (Access.step 0)).foldl access
        (Shared.start g)).updateLock = none := by
  by_cases hlt : best < g.bestResult
  · simp [List.replicate, access, sectionStep, Shared.start, publish, hlt, printBest]
  · simp [List.replicate, access, sectionStep, Shared.start, publish, hlt, printBest]

/-- C15 (defect in the code).  Two workers and a status query on the shared record,
from the static initial globals.  Worker 1 publishes `((3, 4), 25)`; worker 0,
with `((1, 2), 5)`, holds the mutex and has executed only the assignment to
`bestPosition` when the status query runs.  The query does not wait for the
mutex (it is held by worker 0 at that moment) and prints the position `(1, 2)`
with the fitness 25: a record that no worker published. -/
theorem status_query_reads_torn_record :
    ((tornRun : List (Access ℝ)).dropLast.foldl access (Shared.start startGlobals)).updateLock
        = some 0
      ∧ ((tornRun : List (Access ℝ)).foldl access (Shared.start startGlobals)).g.out
          = [Output.newMinimum (![3, 4], 25), Output.bestSoFar (![1, 2], 25)]
      ∧ (∀ i p v, Access.arrive i p v ∈ (tornRun : List (Access ℝ)) →
          (p = ![3, 4] ∧ v = 25) ∨ (p = ![1, 2] ∧ v = 5))
      ∧ (![1, 2] : Position ℝ) ≠ ![3, 4] ∧ (25 : ℝ) ≠ 5 := by
  have h25 : (25 : ℝ) < DBL_MAX := by norm_num [DBL_MAX]
  refine ⟨?_, ?_, ?_, ?_, by norm_num⟩
  · norm_num [tornRun, access, sectionStep, Shared.start, startGlobals, h25]
  · norm_num [tornRun, access, sectionStep, Shared.start, startGlobals, h25, checkBest, printBest]
  · intro i p v hm
    simp only [tornRun, List.mem_cons, Access.arrive.injEq, List.mem_singleton, reduceCtorEq,
      false_or, or_false, List.mem_nil_iff] at hm
    rcases hm with ⟨_, hp, hv⟩ | ⟨_, hp, hv⟩
    · exact Or.inl ⟨hp, hv⟩
    · exact Or.inr ⟨hp, hv⟩
  · intro h
    have := congrFun h 0
    norm_num at this

/-- What the mutex does guarantee.  Only the workers' compare-and-overwrite
section, with the "New minimum" report it prints, runs under the mutex; the status
query and the final report read the record without it.  Under any interleaving of statements of
any workers, status queries and final reports, started with no "New minimum"
written: at most one worker is inside the section and it holds the mutex; every
"New minimum" report shows a pair `(position, best)` that one worker brought to
the section as a whole (never a torn record); a worker that reaches the unlock
leaves a stored fitness `≤` its own (no lost update); and the section run to its
end without interleaving is exactly the atomic compare-and-overwrite. -/
theorem locked_section_protects_workers_only (g : Globals K) (accesses : List (Access K))
    (hout : g.out.any Output.isNewMinimum = false) :
    (∀ i j, ((accesses.foldl access (Shared.start g)).climbers i).pc.inside = true →
        ((accesses.foldl access (Shared.start g)).climbers j).pc.inside = true → i = j)
      ∧ (∀ i, ((accesses.foldl access (Shared.start g)).climbers i).pc.inside = true →
          (accesses.foldl access (Shared.start g)).updateLock = some i)
      ∧ (∀ p v, Output.newMinimum (p, v) ∈ (accesses.foldl access (Shared.start g)).g.out →
          ∃ i, Access.arrive i p v ∈ accesses)
      ∧ (∀ i, ((accesses.foldl access (Shared.start g)).climbers i).pc = .atUnlock →
          (accesses.foldl access (Shared.start g)).g.bestResult
            ≤ ((accesses.foldl access (Shared.start g)).climbers i).best)
      ∧ (∀ (position : Position K) (best : K),
          (([Access.arrive 0 position best] ++ List.replicate 6 (Access.step 0)).foldl access
            (Shared.start g)).g = publish position best g) := by
  have hnone : ∀ p v, Output.newMinimum (p, v) ∈ g.out → ∃ i, Access.arrive i p v ∈ accesses := by
    intro p v hm
    rw [List.any_eq_false] at hout
    exact absurd rfl (hout _ hm)
  have hinv := run_inv (fun p v => ∃ i, Access.arrive i p v ∈ accesses) accesses (Shared.start g)
    (fun i p v hm => ⟨i, hm⟩) (start_inv _ g hnone)
  exact ⟨fun i j hi hj => hinv.exclusive hi hj, hinv.1, hinv.2.2.1, hinv.2.2.2.2.2,
    fun position best => (section_alone g position best).1⟩

/-- The guarantee on the interleaving `tornRun` from the static initial globals:
its only "New minimum" report shows a pair brought by a worker. -/
theorem locked_section_protects_workers_only_witness :
    ∀ p v, Output.newMinimum (p, v)
        ∈ ((tornRun : List (Access ℚ)).foldl access (Shared.start startGlobals)).g.out →
      ∃ i, Access.arrive i p v ∈ (tornRun : List (Access ℚ)) :=
  (locked_section_protects_workers_only (startGlobals : Globals ℚ) tornRun rfl).2.2.1

end ClaimC15

end HillClimb
